import Mathlib

/-!
Verification development for the MaBaker bundle-cache tools
(mabaker.py, 122.py, V1toV2.py).

Files are modelled as lists of byte values (`List Nat`, each element a byte,
below 256 for genuine files).  Machine integers are `Nat` with explicit
`% 2 ^ w` where the source packs fixed-width fields.  Fallible code returns
`Except String`.  Python iteration is modelled with folds or structural
recursion; the recursion of `makeslot` (bounded by the length of the pending
list, which strictly shrinks at each recursive call) and the drain loop
(bounded by jobs + pending, which strictly shrinks per iteration) carry that
bound as an explicit fuel argument so every definition is executable.
-/

/-! ## Byte-string primitives -/

/-- Little-endian bytes of `x`, `n` bytes wide: models `struct.pack` of a
fixed-width unsigned field and `int.to_bytes(n, "little")` (the value is
reduced mod `2 ^ (8 * n)`, which agrees with the source on all in-range
values). -/
def toLE : Nat → Nat → List Nat
  | 0, _ => []
  | n + 1, x => x % 256 :: toLE n (x / 256)

/-- Little-endian value of a byte list: models `int.from_bytes(b, "little")`. -/
def assembleLE (bs : List Nat) : Nat :=
  bs.foldr (fun b acc => b + 256 * acc) 0

/-- Read `n` bytes at offset `off` of `data` as a little-endian value; a slice
that runs past the end is truncated, exactly as a Python slice is. -/
def readLE (data : List Nat) (off n : Nat) : Nat :=
  assembleLE ((data.drop off).take n)

/-- Decode a byte string into 64-bit little-endian words: models
`array.array("Q").frombytes` on a little-endian host (the sources byteswap on
big-endian hosts to obtain the same values).  A trailing fragment shorter
than 8 bytes is dropped. -/
def decodeU64s : List Nat → List Nat
  | b0 :: b1 :: b2 :: b3 :: b4 :: b5 :: b6 :: b7 :: rest =>
      assembleLE [b0, b1, b2, b3, b4, b5, b6, b7] :: decodeU64s rest
  | _ => []

/-! ## V2 bundle header and bundle files (mabaker.py `_bhead`, `createBundle`,
`_readbidx`, `isfull`, `headerfix`; 122.py has byte-identical `v2header`,
`createBundle`, `readbidx`, `headerfix`) -/

/-- The 64-byte V2 bundle header, `struct.pack("<4I3Q6I", ...)` of
`_bhead(maxRecord, fileSize, bsz)` (the optional index argument is never
passed by the sources modelled here). -/
def bhead (maxRecord fileSize : Nat) (bsz : Nat := 128) : List Nat :=
  toLE 4 3 ++ toLE 4 (bsz * bsz) ++ toLE 4 maxRecord ++ toLE 4 5 ++
  toLE 8 0 ++ toLE 8 fileSize ++ toLE 8 40 ++
  toLE 4 (20 + bsz * bsz * 8) ++ toLE 4 3 ++ toLE 4 16 ++
  toLE 4 (bsz * bsz) ++ toLE 4 5 ++ toLE 4 (bsz * bsz * 8)

/-- Bytes of the file written by `createBundle(name)`: the default header
(`_bhead()`, that is maxRecord 0 and fileSize 0) followed by 16384 index
entries holding the empty-tile sentinel `_EOFF = 36`, 8 bytes each. -/
def createBundle : List Nat :=
  bhead 0 0 ++ List.flatten (List.replicate 16384 (toLE 8 36))

/-- `_readbidx`: seek to byte 64 and read 16384 64-bit entries. -/
def readbidx (file : List Nat) : List Nat :=
  decodeU64s ((file.drop 64).take 131072)

/-- Python `min` over a nonempty sequence (the sources only apply it to the
16384-entry index, never to an empty sequence; the empty case is given the
junk value 0). -/
def pyMin : List Nat → Nat
  | [] => 0
  | x :: xs => xs.foldl min x

/-- Python `max` over a nonempty sequence of naturals; `foldl max 0` agrees
with Python on every nonempty list of naturals. -/
def pyMax (l : List Nat) : Nat :=
  l.foldl max 0

/-- `isfull(fname)`: `0 < min(i >> _OBITS for i in idx)`. -/
def isfull (file : List Nat) : Bool :=
  decide (0 < pyMin ((readbidx file).map (fun i => i >>> 40)))

/-- `headerfix(name)`: read the index, take the maximum size field, stat the
file, and rewrite the first 64 bytes with `_bhead(maxsize, filesize)`.
122.py `headerfix` obtains the file size with seek/tell instead of stat but
writes the identical bytes. -/
def headerfix (file : List Nat) : List Nat :=
  bhead (pyMax ((readbidx file).map (fun i => i >>> 40))) file.length ++ file.drop 64

/-! ## Bundle names and grid arithmetic (mabaker.py `nameToRC`, `RCname`) -/

/-- Value of one hexadecimal digit; a character that is no hex digit is given
the junk value 0 (Python `int` would raise `ValueError` there — the theorems
below never depend on the junk case). -/
def hexVal (c : Char) : Nat :=
  if '0' ≤ c ∧ c ≤ '9' then c.toNat - '0'.toNat
  else if 'a' ≤ c ∧ c ≤ 'f' then c.toNat - 'a'.toNat + 10
  else if 'A' ≤ c ∧ c ≤ 'F' then c.toNat - 'A'.toNat + 10
  else 0

/-- Hexadecimal parse of a character list: models `int("0x" ++ s, 0)`. -/
def hexParse (s : List Char) : Nat :=
  s.foldl (fun a c => a * 16 + hexVal c) 0

/-- Index of the first occurrence of `c`, if any. -/
def firstIdx : List Char → Char → Option Nat
  | [], _ => none
  | x :: xs, c => if x = c then some 0 else (firstIdx xs c).map (· + 1)

/-- Python `str.find`: first index or -1. -/
def pyFind (cs : List Char) (c : Char) : Int :=
  match firstIdx cs c with
  | some n => (n : Int)
  | none => -1

/-- Python `str.rfind`: last index or -1. -/
def pyRFind (cs : List Char) (c : Char) : Int :=
  match firstIdx cs.reverse c with
  | some n => (cs.length : Int) - 1 - (n : Int)
  | none => -1

/-- Clamp a Python slice endpoint (negative counts from the end). -/
def pySliceIdx (len : Nat) (i : Int) : Nat :=
  if i < 0 then (max 0 ((len : Int) + i)).toNat else min i.toNat len

/-- Python slice `cs[a:b]`. -/
def pySlice (cs : List Char) (a b : Int) : List Char :=
  (cs.take (pySliceIdx cs.length b)).drop (pySliceIdx cs.length a)

/-- `nameToRC(name)`: append a dot when the name has none, then parse the hex
row between the leading letter and the `C`, and the hex column between the
`C` and the dot. -/
def nameToRC (name : String) : Nat × Nat :=
  let cs0 := name.toList
  let cs := if cs0.contains '.' then cs0 else cs0 ++ ['.']
  let ci := pyFind cs 'C'
  let di := pyFind cs '.'
  (hexParse (pySlice cs 1 ci), hexParse (pySlice cs (ci + 1) di))

/-- Lowercase hex digits of a natural, zero-padded on the left to width `w`:
Python `f"{n:04x}"` for a nonnegative value. -/
def hexPad (w n : Nat) : List Char :=
  let ds := Nat.toDigits 16 n
  List.replicate (w - ds.length) '0' ++ ds

/-- Python `f"{n:04x}"` for a possibly negative int: a minus sign followed by
the magnitude, zero-padded so the whole field is at least `w` characters. -/
def hexPadI (w : Nat) (n : Int) : List Char :=
  if n < 0 then '-' :: hexPad (w - 1) (-n).toNat else hexPad w n.toNat

/-- `RCname(r, c)`: the string `R<4-hex r>C<4-hex c>`.  The scheduler only
calls it at nonnegative values; `candidates` in `getoutputs` also calls it at
negative ones, hence the `Int` domain. -/
def RCname (r c : Int) : String :=
  ⟨'R' :: hexPadI 4 r ++ 'C' :: hexPadI 4 c⟩

/-- `ovrlevel.generates(name)`: the destination bundle of a source bundle,
`RCname((r // 256) * 128, (c // 256) * 128)`. -/
def generates (name : String) : String :=
  let rc := nameToRC name
  RCname ((rc.1 / 256) * 128 : Nat) ((rc.2 / 256) * 128 : Nat)

/-! ## Path handling (os.path.splitext / basename / join, posix flavour) -/

/-- Python `os.path.splitext(p)[0]`: cut at the last dot, provided the dot
comes after the last separator and the basename does not consist solely of
leading dots up to it. -/
def splitextBase (cs : List Char) : List Char :=
  let sepIdx := pyRFind cs '/'
  let dotIdx := pyRFind cs '.'
  if sepIdx < dotIdx then
    if (pySlice cs (sepIdx + 1) dotIdx).any (fun c => c ≠ '.') then
      pySlice cs 0 dotIdx
    else cs
  else cs

/-- Python `os.path.splitext(p)[1]`. -/
def splitextExt (cs : List Char) : List Char :=
  cs.drop (splitextBase cs).length

/-- Python `os.path.basename`. -/
def pyBasename (cs : List Char) : List Char :=
  (cs.reverse.takeWhile (fun c => c ≠ '/')).reverse

/-- Python `os.path.join(a, b)` for posix paths. -/
def pathjoin (a b : String) : String :=
  let as0 := a.toList
  let bs := b.toList
  if bs.head? = some '/' then b
  else if as0 = [] ∨ as0.getLast? = some '/' then ⟨as0 ++ bs⟩
  else ⟨as0 ++ '/' :: bs⟩

/-- Whether `fname` matches the glob pattern `base ++ "*.???"` — the cleanup
pattern `path.splitext(d)[0] + "*.???"` used by `overview`, `underview` and
`tobundle`.  The star may match any characters here (real glob stops a star
at a path separator; the model is more permissive, so a non-match of the
model is also a non-match of the real glob, which is the direction every
theorem below uses). -/
def matchStarDotQQQ (base fname : List Char) : Bool :=
  base.isPrefixOf fname &&
    (let rest := fname.drop base.length
     decide (4 ≤ rest.length) && decide (rest.getD (rest.length - 4) ' ' = '.'))

/-- The unlink loop at the end of `overview` removes exactly the files
matching `path.splitext(d)[0] + "*.???"` for `d` among `(dst, src)`; this is
the membership test for one such `d`. -/
def overviewUnlinkMatches (d f : List Char) : Bool :=
  matchStarDotQQQ (splitextBase d) f

/-! ## `overview.quart_index`: patch one quadrant of a destination index from
an MRF quad index (pairs of offset, size consumed in row-major order over a
64 by 64 block). -/

/-- One iteration of the nested r/c loops of `quart_index`, at flat position
`k` of the quadrant: read the next (offset, size) pair, replace a zero-size
offset by the sentinel 36, store `offset + (size <<< 40)` at row
`top + k / 64`, column `left + k % 64`, and fold the running maxRecord. -/
def quartStep (mrfidx : List Nat) (top left : Nat) (st : List Nat × Nat) (k : Nat) :
    List Nat × Nat :=
  let offset := mrfidx.getD (2 * k) 0
  let size := mrfidx.getD (2 * k + 1) 0
  let offset := if size = 0 then 36 else offset
  (st.1.set ((top + k / 64) * 128 + (left + k % 64)) (offset + (size <<< 40)),
   max st.2 size)

/-- `quart_index` on the in-memory index: returns the patched index and the
updated maxRecord (the source then writes both back into the bundle; the
subsequent tile-size patching pass under `v2` touches payload bytes only). -/
def quartIndex (idx : List Nat) (maxRecord : Nat) (mrfidx : List Nat)
    (bottom right : Bool) : List Nat × Nat :=
  let left := if right then 64 else 0
  let top := if bottom then 64 else 0
  (List.range (64 * 64)).foldl (quartStep mrfidx top left) (idx, maxRecord)

/-- The emptiness test of `underview.quart` (and `tobundle`): the produced
bundle is deleted exactly when its size equals header plus index,
`_IDXSZ + _HSZ`.  `overview` has no such test. -/
def underviewQuartDeletes (size : Nat) : Bool :=
  decide (size = 131072 + 64)

/-! ## `getoutputs.candidates` and its spec-side counterpart -/

/-- The nine grid names `RCname(tr, tc)` for `tr` in `(r - 128, r, r + 128)`
and `tc` in `(c - 128, c, c + 128)` — the generator `cnames` inside
`candidates`. -/
def neighborNames (name : String) : List String :=
  let rc := nameToRC name
  let r : Int := rc.1
  let c : Int := rc.2
  ([r - 128, r, r + 128]).flatMap fun tr =>
    ([c - 128, c, c + 128]).map fun tc => RCname tr tc

/-- `getoutputs.candidates(certains, potentials)`: with an empty certain set,
the full pool; otherwise a fold over `certains` in which each iteration
REBINDS `neighbors` to the filtered neighborhood of that single member (the
filter reads the previous binding), so the returned list documents only the
last member of `certains`. -/
def candidatesFn (certains potentials : List String) : List String :=
  if certains.length = 0 then potentials
  else
    certains.foldl
      (fun neighbors name =>
        (neighborNames name).filter fun n =>
          decide (n ∉ neighbors ∧ n ∈ potentials ∧ n ∉ certains))
      []

/-- Modelled from the spec: row and column offsets between the two bundle
names both lie in (-gridSize, 0, gridSize), gridSize = 128 — the 8-connected
grid-neighbor relation at bundle granularity (a name is its own neighbor at
offset (0,0); the candidate set excludes certain members separately). -/
def isGridNeighbor (m n : String) : Bool :=
  let a := nameToRC m
  let b := nameToRC n
  let dr : Int := (b.1 : Int) - (a.1 : Int)
  let dc : Int := (b.2 : Int) - (a.2 : Int)
  decide ((dr = -128 ∨ dr = 0 ∨ dr = 128) ∧ (dc = -128 ∨ dc = 0 ∨ dc = 128))

/-- Modelled from the spec: the candidate set the claim describes — every
pool name that neighbors at least one member of the whole certain set and is
not already certain; the full pool in the first round. -/
def specCandidates (certains potentials : List String) : List String :=
  if certains.length = 0 then potentials
  else
    potentials.filter fun n =>
      decide (n ∉ certains) && certains.any fun m => isGridNeighbor m n

/-! ## `filltilesurl` inner loop: the probe comparison and the store step -/

/-- The slice of a `requests.Response` the fill loop relies upon. -/
structure PyResponse where
  content : List Nat

/-- Python attribute lookup `resp.record`: `requests.Response` defines no
attribute named `record`, so the lookup raises `AttributeError`; modelled as
the error case. -/
def responseRecord (_ : PyResponse) : Except String (List Nat) :=
  Except.error "AttributeError"

/-- The body of `filltilesurl` for one fetched tile whose index entry is
still empty: take the content, compare against the probed empty tile
(short-circuit: the attribute lookup `empty.record` is only evaluated when
the lengths agree), and either skip the tile or append it — returning the
new index entry, the new append offset and the appended bytes. -/
def urlTileStep (empty tile : PyResponse) (offset : Nat) :
    Except String (Option (Nat × Nat × List Nat)) :=
  let record := tile.content
  let size := record.length
  let stored : Option (Nat × Nat × List Nat) :=
    some ((size <<< 40) + (offset + 4), offset + 4 + record.length,
          toLE 4 size ++ record)
  if empty.content.length = size then
    match responseRecord empty with
    | Except.error e => Except.error e
    | Except.ok er => if record = er then Except.ok none else Except.ok stored
  else Except.ok stored

/-! ## V1 legacy index decoding (122.py and V1toV2.py `v1offsets`) -/

/-- The 16384 raw 5-byte little-endian offsets of a legacy `.bundlx` file, in
storage (column-major) order, starting at byte 16. -/
def v1raw (index : List Nat) : List Nat :=
  (List.range 16384).map fun k => readLE index (16 + 5 * k) 5

/-- The transposed (row-major) offset sequence
`[idx[col * 128 + row] for row in range(128) for col in range(128)]`. -/
def v1transposed (index : List Nat) : List Nat :=
  (List.range 128).flatMap fun row =>
    (List.range 128).map fun col => (v1raw index).getD (col * 128 + row) 0

/-- 122.py `v1offsets`: assert the exact length 16 + 16384*5 + 16 = 81952
(any other length is the fatal format error), decode, transpose. -/
def v1offsets (index : List Nat) : Except String (List Nat) :=
  if index.length = 81952 then Except.ok (v1transposed index)
  else Except.error "Invalid index length"

/-- V1toV2.py `v1offsets`: identical except the 5-byte value is assembled
with explicit byte shifts `index[i] + (index[i+1] << 8) + ... + (index[i+4] << 32)`
(out-of-range reads raise in Python; the length assert keeps them in range,
and the model totalizes them with `getD`). -/
def v1offsetsB (index : List Nat) : Except String (List Nat) :=
  if index.length = 81952 then
    Except.ok
      ((List.range 128).flatMap fun row =>
        (List.range 128).map fun col =>
          ((List.range 16384).map fun k =>
            index.getD (16 + 5 * k) 0 + (index.getD (16 + 5 * k + 1) 0 <<< 8) +
            (index.getD (16 + 5 * k + 2) 0 <<< 16) + (index.getD (16 + 5 * k + 3) 0 <<< 24) +
            (index.getD (16 + 5 * k + 4) 0 <<< 32)).getD (col * 128 + row) 0)
  else Except.error "Invalid index length"

/-! ## The two V1-to-V2 conversion loops (122.py `process` and V1toV2.py
`process`), modelled on the in-memory state: the output index (initially the
16384 sentinels of the fresh bundle), the append offset (initially the size
of the fresh bundle, 131136) and the bytes appended so far. -/

structure ConvSt where
  outidx : List Nat
  outoffset : Nat
  app : List Nat

/-- Tile size 122.py reads for row-major index `i`: 4 bytes at `offsets[i]`
of the legacy data file. -/
def sz122 (offsets data : List Nat) (i : Nat) : Nat :=
  readLE data (offsets.getD i 0) 4

/-- Bytes 122.py appends for a nonzero row-major index `i`:
`data[off : off + 4 + size]` verbatim. -/
def seg122 (offsets data : List Nat) (i : Nat) : List Nat :=
  (data.drop (offsets.getD i 0)).take (4 + sz122 offsets data i)

/-- One iteration of the 122.py conversion loop. -/
def conv122step (offsets data : List Nat) (st : ConvSt) (i : Nat) : ConvSt :=
  let size := sz122 offsets data i
  if size = 0 then st
  else
    { outidx := st.outidx.set i (st.outoffset + 4 + (size <<< 40)),
      outoffset := st.outoffset + 4 + size,
      app := st.app ++ seg122 offsets data i }

/-- The first `k` iterations of the 122.py loop. -/
def conv122N (offsets data outidx0 : List Nat) (base k : Nat) : ConvSt :=
  (List.range k).foldl (conv122step offsets data) ⟨outidx0, base, []⟩

/-- The full 122.py conversion loop, `for i in range(len(outidx))`. -/
def conv122 (offsets data outidx0 : List Nat) (base : Nat) : ConvSt :=
  conv122N offsets data outidx0 base outidx0.length

/-- The V1toV2.py per-iteration source index
`in_idx = ((i % 128) << 7) + (i // 128)` — a second transpose applied on top
of the already transposed `offsets`. -/
def tr128 (i : Nat) : Nat :=
  ((i % 128) <<< 7) + i / 128

/-- Tile size V1toV2.py reads for row-major index `i`: explicit byte shifts
at `offsets[in_idx]`. -/
def sz1to2 (offsets data : List Nat) (i : Nat) : Nat :=
  let off := offsets.getD (tr128 i) 0
  data.getD off 0 + (data.getD (off + 1) 0 <<< 8) +
    (data.getD (off + 2) 0 <<< 16) + (data.getD (off + 3) 0 <<< 24)

/-- Bytes V1toV2.py appends for a nonzero row-major index `i`:
`size.to_bytes(4, "little") + data[off + 4 : off + 4 + size]`. -/
def seg1to2 (offsets data : List Nat) (i : Nat) : List Nat :=
  toLE 4 (sz1to2 offsets data i) ++
    (data.drop (offsets.getD (tr128 i) 0 + 4)).take (sz1to2 offsets data i)

/-- One iteration of the V1toV2.py conversion loop; note the index entry is
`outoffset + 4 + (size >> 40)` in the source. -/
def conv1to2step (offsets data : List Nat) (st : ConvSt) (i : Nat) : ConvSt :=
  let size := sz1to2 offsets data i
  if size = 0 then st
  else
    { outidx := st.outidx.set i (st.outoffset + 4 + (size >>> 40)),
      outoffset := st.outoffset + 4 + size,
      app := st.app ++ seg1to2 offsets data i }

/-- The first `k` iterations of the V1toV2.py loop. -/
def conv1to2N (offsets data outidx0 : List Nat) (base k : Nat) : ConvSt :=
  (List.range k).foldl (conv1to2step offsets data) ⟨outidx0, base, []⟩

/-- The full V1toV2.py conversion loop. -/
def conv1to2 (offsets data outidx0 : List Nat) (base : Nat) : ConvSt :=
  conv1to2N offsets data outidx0 base outidx0.length

/-- The append offset after the first `i` tiles: the fresh-bundle size plus
4 + size for every earlier nonzero tile — the `appendOffset` of the claim. -/
def appendAfter (sz : Nat → Nat) (base : Nat) : Nat → Nat
  | 0 => base
  | i + 1 => appendAfter sz base i + (if sz i = 0 then 0 else 4 + sz i)

/-- The bytes appended after the first `i` tiles: the concatenation, in index
order, of the per-tile segments of the nonzero tiles. -/
def appJoin (sz : Nat → Nat) (seg : Nat → List Nat) : Nat → List Nat
  | 0 => []
  | i + 1 => appJoin sz seg i ++ (if sz i = 0 then [] else seg i)

/-- Concrete failing input, offsets part: a legacy index whose 16384 offsets
are all zero (the decode of an 81952-byte all-zero `.bundlx`). -/
def woffs : List Nat :=
  List.replicate 16384 0

/-- Concrete failing input, data part: a legacy data file holding one tile
record at offset 0 — size field 5, then five payload bytes. -/
def wdata : List Nat :=
  [5, 0, 0, 0, 9, 9, 9, 9, 9]

/-- Second concrete failing input, offsets part: every offset points at byte
9 of the data file (where a zero size field lies) except offset 1, which
points at byte 0 (a stored tile of size 5). -/
def woffs2 : List Nat :=
  (List.replicate 16384 9).set 1 0

/-- Second concrete failing input, data part: a stored tile (size field 5,
five payload bytes) at offset 0, and a zero size field at offset 9. -/
def wdata2 : List Nat :=
  [5, 0, 0, 0, 9, 9, 9, 9, 9, 0, 0, 0, 0]

/-! ## `fillbundle(srcfile, bfile)` (GapFiller) -/

structure FillSt where
  idx : List Nat
  offset : Nat
  app : List Nat
  maxsize : Nat
  modified : Bool

/-- The fill loop over the index positions: a slot qualifies when the
destination size field is zero and the source size field is not; a source
record that would read past the source file end raises the corruption error
(the bytes already appended by earlier iterations stay in the destination
file in that case; the claims below do not touch it). -/
def fillGo (srcfile sidx : List Nat) (srcsize : Nat) :
    List Nat → FillSt → Except String FillSt
  | [], st => Except.ok st
  | i :: rest, st =>
    if st.idx.getD i 0 >>> 40 ≠ 0 ∨ sidx.getD i 0 >>> 40 = 0 then
      fillGo srcfile sidx srcsize rest st
    else
      let size := sidx.getD i 0 >>> 40
      let soffset := sidx.getD i 0 - (size <<< 40)
      if soffset + size > srcsize then Except.error "Corrupt bundle"
      else
        let record := (srcfile.drop soffset).take size
        fillGo srcfile sidx srcsize rest
          { idx := st.idx.set i ((size <<< 40) + (st.offset + 4)),
            offset := st.offset + 4 + record.length,
            app := st.app ++ toLE 4 size ++ record,
            maxsize := max size st.maxsize,
            modified := true }

/-- `fillbundle(srcfile, bfile)` on whole files: read both indexes, run the
fill loop, and only when at least one slot was filled rewrite the header
(with the tracked maxsize and the final offset) and the index; otherwise the
destination bytes are returned untouched. -/
def fillbundle (srcfile dstfile : List Nat) : Except String (List Nat) :=
  let idx := readbidx dstfile
  let maxsize := pyMax (idx.map (fun e => e >>> 40))
  match fillGo srcfile (readbidx srcfile) srcfile.length (List.range idx.length)
      ⟨idx, dstfile.length, [], maxsize, false⟩ with
  | Except.error e => Except.error e
  | Except.ok st =>
    if st.modified then
      Except.ok (bhead st.maxsize st.offset ++ List.flatten (st.idx.map (toLE 8)) ++
        dstfile.drop 131136 ++ st.app)
    else Except.ok dstfile

/-! ## `ovrbundle(srcpath, dst, ...)` -/

/-- The four candidate source bundle paths `ovrbundle` probes, in loop order
`dr in (0, _BSZ)`, `dc in (0, _BSZ)`. -/
def ovrbundleSrcs (srcpath dst : String) : List String :=
  let dst2 : String :=
    if splitextExt dst.toList ≠ ".bundle".toList then ⟨dst.toList ++ ".bundle".toList⟩
    else dst
  let rc := nameToRC ⟨pyBasename dst2.toList⟩
  [(0, 0), (0, 128), (128, 0), (128, 128)].map fun dd =>
    pathjoin srcpath (RCname (rc.1 * 2 + dd.1 : Nat) (rc.2 * 2 + dd.2 : Nat)) ++ ".bundle"

/-- The probe loop of `ovrbundle`: a missing source is skipped; for the first
existing source the call `overview(src, dst, ..., options = options, ...)`
evaluates the name `options`, which is neither a parameter of `ovrbundle`
nor a module global, so Python raises `NameError` before `overview` runs. -/
def ovrbundleGo (ex : String → Bool) : List String → Except String Unit
  | [] => Except.ok ()
  | s :: rest =>
    if ex s then Except.error "NameError: name options is not defined"
    else ovrbundleGo ex rest

/-- `ovrbundle(srcpath, dst)` given the file-existence predicate `ex` of the
environment: returns unit when no source exists, else the `NameError`. -/
def ovrbundleRun (ex : String → Bool) (srcpath dst : String) : Except String Unit :=
  ovrbundleGo ex (ovrbundleSrcs srcpath dst)

/-! ## The `ovrlevel` scheduler.

State: the in-flight `jobs` list (each job identified by its source entry
name, whose destination is `generates entry`), the `pending` list, and an
oracle — a stream of naturals deciding which in-flight job `endajob` reports
finished (any finished job is some index below the list length, so taking
the choice modulo the length ranges over every possible real schedule).
Each function also returns the trace of every value the in-flight list takes
(one snapshot after each pop and each append), which is what the
mutual-exclusion claim quantifies over. -/

structure SchedOut where
  jobs : List String
  pending : List String
  oracle : List Nat
  trace : List (List String)

/-- `jobs.pop(endajob(jobs))` under the oracle: remove the chosen index. -/
def popJobs (oracle : List Nat) (jobs : List String) : List String :=
  jobs.eraseIdx (match oracle with | [] => 0 | c :: _ => c % jobs.length)

/-- The oracle after one `endajob` consultation. -/
def popOracle (oracle : List Nat) : List Nat :=
  oracle.tail

/-- The scan of `makeslot` over `pending` with a fixed `blocked` tuple:
remove and return the first entry whose destination is not blocked, with the
remaining pending list; `none` when every pending entry is blocked. -/
def takeFirstUnblocked (blocked : List String) : List String → Option (String × List String)
  | [] => none
  | e :: rest =>
    if generates e ∈ blocked then
      match takeFirstUnblocked blocked rest with
      | none => none
      | some (x, rest2) => some (x, e :: rest2)
    else some (e, rest)

/-- The `jobs.pop(endajob(jobs))` step of `makeslot`, guarded as in the
source by `if len(jobs) != 0`. -/
def msPop (jobs : List String) (oracle : List Nat) : List String :=
  if jobs.length ≠ 0 then popJobs oracle jobs else jobs

/-- The oracle left after the guarded pop. -/
def msPopO (jobs : List String) (oracle : List Nat) : List Nat :=
  if jobs.length ≠ 0 then popOracle oracle else oracle

/-- `ovrlevel.makeslot(drain)`.  The fuel bounds the recursion depth; each
recursive call removes one pending entry, so `pending.length` fuel (what
`makeslot` below supplies) always suffices and the fuel-exhausted branch is
unreachable.  Faithful to the source: return at once when the slots are not
full and we are not draining; otherwise pop one finished job (when any job
runs), then admit the first unblocked pending entry, recursing while slots
are full (or draining). -/
def makeslotF (nprocs : Nat) (drain : Bool) :
    Nat → List String → List String → List Nat → SchedOut
  | fuel, jobs, pending, oracle =>
    if drain = false ∧ jobs.length ≠ nprocs then ⟨jobs, pending, oracle, []⟩
    else
      match pending with
      | [] => ⟨msPop jobs oracle, [], msPopO jobs oracle, [msPop jobs oracle]⟩
      | p :: ps =>
        match takeFirstUnblocked ((msPop jobs oracle).map generates) (p :: ps) with
        | none => ⟨msPop jobs oracle, p :: ps, msPopO jobs oracle, [msPop jobs oracle]⟩
        | some (e, pending1) =>
          match fuel with
          | 0 => ⟨msPop jobs oracle, p :: ps, msPopO jobs oracle, [msPop jobs oracle]⟩
          | fuel0 + 1 =>
            let out := makeslotF nprocs drain fuel0 (msPop jobs oracle ++ [e])
              pending1 (msPopO jobs oracle)
            ⟨out.jobs, out.pending, out.oracle,
              msPop jobs oracle :: (msPop jobs oracle ++ [e]) :: out.trace⟩

/-- `makeslot` with the always-sufficient fuel. -/
def makeslot (nprocs : Nat) (drain : Bool) (jobs pending : List String)
    (oracle : List Nat) : SchedOut :=
  makeslotF nprocs drain pending.length jobs pending oracle

/-- The entry loop of `ovrlevel`: for each source entry, compute `blocked`
from the running jobs; a blocked entry goes to pending, otherwise
`makeslot()` then `submit(entry)` (the append to jobs). -/
def schedLoop (nprocs : Nat) :
    List String → List String → List String → List Nat → SchedOut
  | [], jobs, pending, oracle => ⟨jobs, pending, oracle, []⟩
  | e :: rest, jobs, pending, oracle =>
    if generates e ∈ jobs.map generates then
      schedLoop nprocs rest jobs (pending ++ [e]) oracle
    else
      let o1 := makeslot nprocs false jobs pending oracle
      let o2 := schedLoop nprocs rest (o1.jobs ++ [e]) o1.pending o1.oracle
      ⟨o2.jobs, o2.pending, o2.oracle, o1.trace ++ (o1.jobs ++ [e]) :: o2.trace⟩

/-- The drain loop `while 0 != len(jobs): makeslot(drain = True)`.  Each
iteration pops at least one job and admissions conserve jobs + pending, so
`jobs.length + pending.length` fuel (what `ovrlevelTrace` supplies) always
reaches the empty-jobs exit — `drainLoop_complete` below proves it. -/
def drainLoop (nprocs : Nat) : Nat → List String → List String → List Nat → SchedOut
  | _, [], pending, oracle => ⟨[], pending, oracle, []⟩
  | 0, jobs, pending, oracle => ⟨jobs, pending, oracle, []⟩
  | fuel + 1, jobs, pending, oracle =>
    let o1 := makeslot nprocs true jobs pending oracle
    let o2 := drainLoop nprocs fuel o1.jobs o1.pending o1.oracle
    ⟨o2.jobs, o2.pending, o2.oracle, o1.trace ++ o2.trace⟩

/-- The whole `ovrlevel` run over a list of source entries (the basenames the
glob yields) under a completion oracle: every value the in-flight jobs list
ever takes. -/
def ovrlevelTrace (nprocs : Nat) (entries : List String) (oracle : List Nat) :
    List (List String) :=
  let o1 := schedLoop nprocs entries [] [] oracle
  let o2 := drainLoop nprocs (o1.jobs.length + o1.pending.length) o1.jobs o1.pending o1.oracle
  o1.trace ++ o2.trace

/-! ## Helper lemmas: byte strings -/

theorem toLE_length (n : Nat) : ∀ x, (toLE n x).length = n := by
  induction n with
  | zero => intro x; rfl
  | succ n ih => intro x; simpa [toLE] using ih (x / 256)

theorem toLE_mem_lt (n : Nat) : ∀ x, ∀ b ∈ toLE n x, b < 256 := by
  induction n with
  | zero => intro x b hb; simp [toLE] at hb
  | succ n ih =>
    intro x b hb
    simp only [toLE, List.mem_cons] at hb
    rcases hb with h | h
    · omega
    · exact ih (x / 256) b h

theorem assembleLE_toLE (n : Nat) : ∀ x, assembleLE (toLE n x) = x % 2 ^ (8 * n) := by
  induction n with
  | zero => intro x; simp [toLE, assembleLE, Nat.mod_one]
  | succ n ih =>
    intro x
    have h : (2 : Nat) ^ (8 * (n + 1)) = 256 * 2 ^ (8 * n) := by
      rw [Nat.mul_succ, Nat.pow_add]; ring
    rw [h, Nat.mod_mul]
    simp only [toLE, assembleLE, List.foldr_cons]
    have := ih (x / 256)
    simp only [assembleLE] at this
    omega

theorem assembleLE_lt (bs : List Nat) (hb : ∀ b ∈ bs, b < 256) :
    assembleLE bs < 2 ^ (8 * bs.length) := by
  induction bs with
  | nil => simp [assembleLE]
  | cons x xs ih =>
    have hx : x < 256 := hb x (List.mem_cons_self x xs)
    have ht : assembleLE xs < 2 ^ (8 * xs.length) :=
      ih fun b h => hb b (List.mem_cons_of_mem x h)
    have h : (2 : Nat) ^ (8 * (xs.length + 1)) = 256 * 2 ^ (8 * xs.length) := by
      rw [Nat.mul_succ, Nat.pow_add]; ring
    simp only [assembleLE, List.foldr_cons, List.length_cons, h]
    simp only [assembleLE] at ht
    omega

theorem drop_app_len (l1 l2 : List Nat) : (l1 ++ l2).drop l1.length = l2 :=
  List.drop_left l1 l2

theorem take_app_len (l1 l2 : List Nat) : (l1 ++ l2).take l1.length = l1 :=
  List.take_left l1 l2

theorem bhead_length (m f : Nat) : (bhead m f).length = 64 := by
  simp [bhead, toLE_length]

theorem readLE_app (l1 l2 : List Nat) (n : Nat) :
    readLE (l1 ++ l2) l1.length n = assembleLE (l2.take n) := by
  simp [readLE, drop_app_len]

theorem bhead_split8 (m f : Nat) (rest : List Nat) :
    bhead m f ++ rest =
      (toLE 4 3 ++ toLE 4 16384) ++
        (toLE 4 m ++ (toLE 4 5 ++ toLE 8 0 ++ toLE 8 f ++ toLE 8 40 ++
          toLE 4 131092 ++ toLE 4 3 ++ toLE 4 16 ++ toLE 4 16384 ++ toLE 4 5 ++
          toLE 4 131072 ++ rest)) := by
  simp only [bhead]
  norm_num [List.append_assoc]

theorem readLE_bhead_maxRecord (m f : Nat) (rest : List Nat) :
    readLE (bhead m f ++ rest) 8 4 = m % 2 ^ 32 := by
  rw [bhead_split8]
  have h8 : (toLE 4 3 ++ toLE 4 16384).length = 8 := by simp [toLE_length]
  rw [readLE, List.drop_left' h8, List.take_left' (toLE_length 4 m)]
  simpa using assembleLE_toLE 4 m

theorem bhead_split24 (m f : Nat) (rest : List Nat) :
    bhead m f ++ rest =
      (toLE 4 3 ++ toLE 4 16384 ++ toLE 4 m ++ toLE 4 5 ++ toLE 8 0) ++
        (toLE 8 f ++ (toLE 8 40 ++ toLE 4 131092 ++ toLE 4 3 ++ toLE 4 16 ++
          toLE 4 16384 ++ toLE 4 5 ++ toLE 4 131072 ++ rest)) := by
  simp only [bhead]
  norm_num [List.append_assoc]

theorem readLE_bhead_fileSize (m f : Nat) (rest : List Nat) :
    readLE (bhead m f ++ rest) 24 8 = f % 2 ^ 64 := by
  rw [bhead_split24]
  have h24 : (toLE 4 3 ++ toLE 4 16384 ++ toLE 4 m ++ toLE 4 5 ++ toLE 8 0).length = 24 := by
    simp [toLE_length]
  rw [readLE, List.drop_left' h24, List.take_left' (toLE_length 8 f)]
  simpa using assembleLE_toLE 8 f

theorem decodeU64s_toLE8 (v : Nat) (rest : List Nat) :
    decodeU64s (toLE 8 v ++ rest) = v % 2 ^ 64 :: decodeU64s rest := by
  have h : decodeU64s (toLE 8 v ++ rest) = assembleLE (toLE 8 v) :: decodeU64s rest := rfl
  rw [h, assembleLE_toLE]

theorem flatten_replicate_length (l : List Nat) :
    ∀ n, (List.flatten (List.replicate n l)).length = n * l.length := by
  intro n
  induction n with
  | zero => simp
  | succ n ih => simp [List.replicate_succ, ih, Nat.succ_mul]; omega

theorem decodeU64s_flatten_replicate (v : Nat) :
    ∀ n, decodeU64s (List.flatten (List.replicate n (toLE 8 v))) =
      List.replicate n (v % 2 ^ 64) := by
  intro n
  induction n with
  | zero => rfl
  | succ n ih => simp [List.replicate_succ, decodeU64s_toLE8, ih]

theorem foldl_min_zero : ∀ l : List Nat, List.foldl min 0 l = 0 := by
  intro l
  induction l with
  | nil => rfl
  | cons x xs ih => simpa [Nat.zero_min] using ih

/-! ## Helper lemmas: the created empty bundle -/

theorem createBundle_length : createBundle.length = 131136 := by
  rw [createBundle, List.length_append, bhead_length, flatten_replicate_length, toLE_length]

theorem readbidx_createBundle : readbidx createBundle = List.replicate 16384 36 := by
  have hd : createBundle.drop 64 = List.flatten (List.replicate 16384 (toLE 8 36)) := by
    rw [createBundle, show (64 : Nat) = (bhead 0 0).length from (bhead_length 0 0).symm,
      drop_app_len]
  have hl : (List.flatten (List.replicate 16384 (toLE 8 36))).length = 131072 := by
    rw [flatten_replicate_length, toLE_length]
  rw [readbidx, hd, show (131072 : Nat) = _ from hl.symm, List.take_length,
    decodeU64s_flatten_replicate]
  norm_num

theorem isfull_createBundle : isfull createBundle = false := by
  rw [isfull, readbidx_createBundle, List.map_replicate]
  have h36 : ((36 : Nat) >>> 40) = 0 := by decide
  rw [h36, show List.replicate 16384 (0 : Nat) = 0 :: List.replicate 16383 0 from rfl,
    show pyMin (0 :: List.replicate 16383 0) = List.foldl min 0 (List.replicate 16383 0)
      from rfl,
    foldl_min_zero]
  rfl

/-! ## Helper lemmas: bounds and maxima -/

theorem decodeU64s_cons (bs : List Nat) (h : 8 ≤ bs.length) :
    ∃ v rest, decodeU64s bs = v :: rest := by
  rcases bs with _ | ⟨b0, bs⟩
  · simp at h
  rcases bs with _ | ⟨b1, bs⟩
  · simp at h
  rcases bs with _ | ⟨b2, bs⟩
  · simp at h
  rcases bs with _ | ⟨b3, bs⟩
  · simp at h
  rcases bs with _ | ⟨b4, bs⟩
  · simp at h
  rcases bs with _ | ⟨b5, bs⟩
  · simp at h
  rcases bs with _ | ⟨b6, bs⟩
  · simp at h
  rcases bs with _ | ⟨b7, bs⟩
  · simp at h
  exact ⟨_, _, rfl⟩

theorem decodeU64s_mem_lt_aux :
    ∀ (n : Nat) (bs : List Nat), bs.length ≤ n → (∀ b ∈ bs, b < 256) →
      ∀ v ∈ decodeU64s bs, v < 2 ^ 64 := by
  intro n
  induction n with
  | zero =>
    intro bs hlen hb v hv
    rw [List.length_eq_zero.mp (Nat.le_zero.mp hlen)] at hv
    simp [decodeU64s] at hv
  | succ n ih =>
    intro bs hlen hb v hv
    rcases bs with _ | ⟨b0, bs⟩
    · simp [decodeU64s] at hv
    rcases bs with _ | ⟨b1, bs⟩
    · simp [decodeU64s] at hv
    rcases bs with _ | ⟨b2, bs⟩
    · simp [decodeU64s] at hv
    rcases bs with _ | ⟨b3, bs⟩
    · simp [decodeU64s] at hv
    rcases bs with _ | ⟨b4, bs⟩
    · simp [decodeU64s] at hv
    rcases bs with _ | ⟨b5, bs⟩
    · simp [decodeU64s] at hv
    rcases bs with _ | ⟨b6, bs⟩
    · simp [decodeU64s] at hv
    rcases bs with _ | ⟨b7, rest⟩
    · simp [decodeU64s] at hv
    rcases List.mem_cons.mp hv with h | h
    · subst h
      have h8 : ∀ b ∈ [b0, b1, b2, b3, b4, b5, b6, b7], b < 256 :=
        fun b hbm => hb b (List.mem_append.mpr (Or.inl hbm))
      have halt := assembleLE_lt [b0, b1, b2, b3, b4, b5, b6, b7] h8
      have hlen8 : (8 : Nat) * [b0, b1, b2, b3, b4, b5, b6, b7].length = 64 := by
        simp
      rw [hlen8] at halt
      exact halt
    · refine ih rest ?_ (fun b hbm => hb b
        (List.mem_append.mpr (Or.inr hbm) :
          b ∈ [b0, b1, b2, b3, b4, b5, b6, b7] ++ rest)) v h
      simp only [List.length_cons] at hlen
      omega

theorem decodeU64s_mem_lt (bs : List Nat) (hb : ∀ b ∈ bs, b < 256) :
    ∀ v ∈ decodeU64s bs, v < 2 ^ 64 :=
  decodeU64s_mem_lt_aux bs.length bs (Nat.le_refl _) hb

theorem foldl_max_init_le (l : List Nat) : ∀ a, a ≤ l.foldl max a := by
  induction l with
  | nil => intro a; exact Nat.le_refl a
  | cons x xs ih =>
    intro a
    exact Nat.le_trans (Nat.le_max_left a x) (ih (max a x))

theorem foldl_max_le (l : List Nat) : ∀ a, ∀ x ∈ l, x ≤ l.foldl max a := by
  induction l with
  | nil => intro a x hx; simp at hx
  | cons y ys ih =>
    intro a x hx
    rcases List.mem_cons.mp hx with h | h
    · subst h
      exact Nat.le_trans (Nat.le_max_right a x) (foldl_max_init_le ys (max a x))
    · exact ih (max a y) x h

theorem foldl_max_lt (l : List Nat) (B : Nat) : ∀ a, a < B → (∀ x ∈ l, x < B) →
    l.foldl max a < B := by
  induction l with
  | nil => intro a ha _; exact ha
  | cons y ys ih =>
    intro a ha hl
    refine ih (max a y) ?_ fun x hx => hl x (List.mem_cons_of_mem y hx)
    have := hl y (List.mem_cons_self y ys)
    omega

theorem foldl_max_mem (l : List Nat) : ∀ a, l.foldl max a = a ∨ l.foldl max a ∈ l := by
  induction l with
  | nil => intro a; exact Or.inl rfl
  | cons y ys ih =>
    intro a
    rcases ih (max a y) with h | h
    · rcases Nat.le_total a y with hy | hy
      · right
        rw [List.foldl_cons, h, Nat.max_eq_right hy]
        exact List.mem_cons_self y ys
      · left
        rw [List.foldl_cons, h, Nat.max_eq_left hy]
    · right
      exact List.mem_cons_of_mem y h

theorem bhead_mem_lt (m f : Nat) : ∀ b ∈ bhead m f, b < 256 := by
  simp only [bhead, List.forall_mem_append]
  repeat' apply And.intro
  all_goals exact toLE_mem_lt _ _

theorem mem_createBundle_lt : ∀ b ∈ createBundle, b < 256 := by
  intro b hb
  rw [createBundle] at hb
  rcases List.mem_append.mp hb with h | h
  · exact bhead_mem_lt 0 0 b h
  · obtain ⟨l, hl, hbl⟩ := List.mem_flatten.mp h
    rw [List.eq_of_mem_replicate hl] at hbl
    exact toLE_mem_lt 8 36 b hbl

/-! ## C8.  headerfix postcondition. -/

/-- C8: on any bundle whose index region is complete (the file is at least
header plus index long) `headerfix` rewrites exactly the 64-byte header: the
maxTileSize field then reads as the maximum of the size fields (entry >> 40)
over the index — an upper bound that is attained — the fileSize field reads
as the file length, and every byte from offset 64 on is unchanged. -/
theorem headerfix_postcondition (file : List Nat)
    (hb : ∀ b ∈ file, b < 256) (hl : 131136 ≤ file.length)
    (hfs : file.length < 2 ^ 64) :
    readLE (headerfix file) 8 4 = pyMax ((readbidx file).map (fun e => e >>> 40)) ∧
    (∀ e ∈ readbidx file, e >>> 40 ≤ readLE (headerfix file) 8 4) ∧
    (∃ e ∈ readbidx file, readLE (headerfix file) 8 4 = e >>> 40) ∧
    readLE (headerfix file) 24 8 = file.length ∧
    (headerfix file).drop 64 = file.drop 64 ∧
    (headerfix file).length = file.length := by
  have hidx : ∀ v ∈ readbidx file, v < 2 ^ 64 := by
    intro v hv
    refine decodeU64s_mem_lt _ (fun b hbm => hb b ?_) v hv
    exact List.mem_of_mem_drop (List.mem_of_mem_take hbm)
  have hsz : ∀ s ∈ (readbidx file).map (fun e => e >>> 40), s < 2 ^ 24 := by
    intro s hs
    obtain ⟨e, he, rfl⟩ := List.mem_map.mp hs
    have := hidx e he
    have : e / 2 ^ 40 < 2 ^ 24 := by
      apply Nat.div_lt_of_lt_mul
      calc e < 2 ^ 64 := this
        _ = 2 ^ 40 * 2 ^ 24 := by norm_num
    simpa [Nat.shiftRight_eq_div_pow] using this
  have hmax : pyMax ((readbidx file).map (fun e => e >>> 40)) < 2 ^ 32 := by
    refine foldl_max_lt _ _ 0 (by norm_num) fun x hx => ?_
    have := hsz x hx
    omega
  have hne : readbidx file ≠ [] := by
    obtain ⟨v, rest, hv⟩ := decodeU64s_cons ((file.drop 64).take 131072) (by
      rw [List.length_take, List.length_drop]
      omega)
    rw [readbidx, hv]
    simp
  have hmaxfield : readLE (headerfix file) 8 4 =
      pyMax ((readbidx file).map (fun e => e >>> 40)) := by
    rw [headerfix, readLE_bhead_maxRecord, Nat.mod_eq_of_lt hmax]
  refine ⟨hmaxfield, ?_, ?_, ?_, ?_, ?_⟩
  · intro e he
    rw [hmaxfield]
    exact foldl_max_le _ 0 _ (List.mem_map.mpr ⟨e, he, rfl⟩)
  · rw [hmaxfield]
    rcases foldl_max_mem ((readbidx file).map (fun e => e >>> 40)) 0 with h | h
    · obtain ⟨e, he⟩ := List.exists_mem_of_ne_nil _ hne
      refine ⟨e, he, ?_⟩
      have hle := foldl_max_le ((readbidx file).map (fun e => e >>> 40)) 0 (e >>> 40)
        (List.mem_map.mpr ⟨e, he, rfl⟩)
      simp only [pyMax]
      omega
    · obtain ⟨e, he, heq⟩ := List.mem_map.mp h
      refine ⟨e, he, ?_⟩
      simp only [pyMax]
      exact heq.symm
  · rw [headerfix, readLE_bhead_fileSize, Nat.mod_eq_of_lt hfs]
  · rw [headerfix, List.drop_left' (bhead_length _ _)]
  · rw [headerfix, List.length_append, bhead_length, List.length_drop]
    omega

/-- C8 witness: `headerfix` applied to the concrete freshly created bundle
(131136 bytes, all index entries sentinel): its fileSize field then reads the
file length and bytes from 64 on are untouched. -/
theorem headerfix_postcondition_witness :
    readLE (headerfix createBundle) 24 8 = createBundle.length ∧
    (headerfix createBundle).drop 64 = createBundle.drop 64 ∧
    readLE (headerfix createBundle) 8 4 =
      pyMax ((readbidx createBundle).map (fun e => e >>> 40)) := by
  have h := headerfix_postcondition createBundle mem_createBundle_lt
    (by rw [createBundle_length]) (by rw [createBundle_length]; norm_num)
  exact ⟨h.2.2.2.1, h.2.2.2.2.1, h.1⟩

/-! ## C3.  createBundle postcondition. -/

/-- C3 counterexample: the claim states the fileSize header field of the
freshly created bundle equals header plus index size, 64 + 16384 * 8 =
131136; the source writes the default header `_bhead()` whose fileSize
argument is 0, so the field reads 0. -/
theorem createBundle_fileSize_counterexample :
    ¬ readLE createBundle 24 8 = 64 + 16384 * 8 := by
  have h := readLE_bhead_fileSize 0 0 (List.flatten (List.replicate 16384 (toLE 8 36)))
  rw [createBundle, h]
  norm_num

/-- C3 amended: `createBundle` writes a 64-byte header whose maxTileSize
field is 0 and whose fileSize field is 0 (not header plus index size; the
file itself is 64 + 16384 * 8 bytes long), followed by exactly 16384 index
entries all equal to the sentinel 36, and `isfull` on the result is false. -/
theorem createBundle_postcondition_amended :
    createBundle.length = 64 + 16384 * 8 ∧
    readLE createBundle 8 4 = 0 ∧
    readLE createBundle 24 8 = 0 ∧
    readbidx createBundle = List.replicate 16384 36 ∧
    isfull createBundle = false := by
  refine ⟨by rw [createBundle_length], ?_, ?_, readbidx_createBundle,
    isfull_createBundle⟩
  · have h := readLE_bhead_maxRecord 0 0 (List.flatten (List.replicate 16384 (toLE 8 36)))
    rw [createBundle, h, Nat.zero_mod]
  · have h := readLE_bhead_fileSize 0 0 (List.flatten (List.replicate 16384 (toLE 8 36)))
    rw [createBundle, h, Nat.zero_mod]

/-! ## C9.  GapFiller no-op frame condition. -/

theorem fillGo_skip (srcfile sidx : List Nat) (srcsize : Nat) :
    ∀ (is : List Nat) (st : FillSt),
      (∀ i ∈ is, st.idx.getD i 0 >>> 40 ≠ 0 ∨ sidx.getD i 0 >>> 40 = 0) →
      fillGo srcfile sidx srcsize is st = Except.ok st := by
  intro is
  induction is with
  | nil => intro st h; rfl
  | cons i rest ih =>
    intro st h
    rw [fillGo, if_pos (h i (List.mem_cons_self i rest))]
    exact ih st fun j hj => h j (List.mem_cons_of_mem i hj)

/-- C9: when no index slot qualifies for filling — no position where the
destination size field is zero while the source size field is nonzero — the
destination file is returned byte-for-byte unmodified: no append, no index
write, no header rewrite. -/
theorem fillbundle_noop (srcfile dstfile : List Nat)
    (h : ∀ i, (readbidx dstfile).getD i 0 >>> 40 ≠ 0 ∨
      (readbidx srcfile).getD i 0 >>> 40 = 0) :
    fillbundle srcfile dstfile = Except.ok dstfile := by
  have hgo := fillGo_skip srcfile (readbidx srcfile) srcfile.length
    (List.range (readbidx dstfile).length)
    ⟨readbidx dstfile, dstfile.length, [],
      pyMax ((readbidx dstfile).map (fun e => e >>> 40)), false⟩
    (fun i _ => h i)
  simp only [fillbundle]
  rw [hgo]
  rfl

theorem getD_replicate36_shift (i : Nat) :
    (List.replicate 16384 (36 : Nat)).getD i 0 >>> 40 = 0 := by
  rcases Nat.lt_or_ge i 16384 with hi | hi
  · rw [List.getD_eq_getElem?_getD, List.getElem?_replicate, if_pos hi]
    rfl
  · rw [List.getD_eq_getElem?_getD, List.getElem?_replicate, if_neg (by omega)]
    rfl

/-- C9 witness: filling a freshly created (all-sentinel) destination from a
freshly created source — every source size field is zero, so no slot
qualifies and the destination bytes come back untouched. -/
theorem fillbundle_noop_witness :
    fillbundle createBundle createBundle = Except.ok createBundle := by
  refine fillbundle_noop createBundle createBundle fun i => Or.inr ?_
  rw [readbidx_createBundle]
  exact getD_replicate36_shift i

/-! ## C5.  filltilesurl empty-tile comparison. -/

/-- C5: the comparison against the probed empty tile does NOT complete for a
fetched tile whose length equals the probe length — the source compares
`record == empty.record`, and `empty.record` is not an attribute of a
response object, so the loop raises `AttributeError` (the intended attribute
is `empty.content`).  A tile of a different length is stored normally, since
the conjunction short-circuits before the broken attribute access. -/
theorem filltilesurl_probe_compare_bug :
    urlTileStep ⟨[1, 2, 3]⟩ ⟨[1, 2, 3]⟩ 131136 = Except.error "AttributeError" ∧
    urlTileStep ⟨[1, 2, 3]⟩ ⟨[4, 5]⟩ 131136 =
      Except.ok (some ((2 <<< 40) + 131140, 131142, toLE 4 2 ++ [4, 5])) :=
  ⟨rfl, rfl⟩

/-! ## C10.  ovrbundle NameError. -/

theorem ovrbundleGo_error (ex : String → Bool) :
    ∀ l : List String, (∃ s ∈ l, ex s = true) →
      ovrbundleGo ex l = Except.error "NameError: name options is not defined" := by
  intro l
  induction l with
  | nil =>
    rintro ⟨s, hs, _⟩
    simp at hs
  | cons a rest ih =>
    rintro ⟨s, hs, hex⟩
    rw [ovrbundleGo]
    by_cases ha : ex a = true
    · rw [if_pos ha]
    · rw [if_neg ha]
      apply ih
      rcases List.mem_cons.mp hs with rfl | hmem
      · exact absurd hex ha
      · exact ⟨s, hmem, hex⟩

theorem ovrbundleGo_ok (ex : String → Bool) :
    ∀ l : List String, (∀ s ∈ l, ex s = false) → ovrbundleGo ex l = Except.ok () := by
  intro l
  induction l with
  | nil => intro _; rfl
  | cons a rest ih =>
    intro h
    rw [ovrbundleGo, if_neg (by rw [h a (List.mem_cons_self a rest)]; simp)]
    exact ih fun s hs => h s (List.mem_cons_of_mem a hs)

/-- C10: whenever at least one of the four candidate source bundles exists,
`ovrbundle` fails with the `NameError` on the unbound name `options` before
any overview completes; when none exists, it returns normally without
writing any bundle. -/
theorem ovrbundle_nameerror (ex : String → Bool) (srcpath dst : String) :
    ((∃ s ∈ ovrbundleSrcs srcpath dst, ex s = true) →
      ovrbundleRun ex srcpath dst =
        Except.error "NameError: name options is not defined") ∧
    ((∀ s ∈ ovrbundleSrcs srcpath dst, ex s = false) →
      ovrbundleRun ex srcpath dst = Except.ok ()) :=
  ⟨fun h => ovrbundleGo_error ex _ h, fun h => ovrbundleGo_ok ex _ h⟩

/-- C10 witness: a concrete run — with every source present the call fails
with the NameError; with none present it returns unit. -/
theorem ovrbundle_nameerror_witness :
    ovrbundleRun (fun _ => true) "L11" "R0000C0000" =
      Except.error "NameError: name options is not defined" ∧
    ovrbundleRun (fun _ => false) "L11" "R0000C0000" = Except.ok () :=
  ⟨(ovrbundle_nameerror (fun _ => true) "L11" "R0000C0000").1 (by decide),
   (ovrbundle_nameerror (fun _ => false) "L11" "R0000C0000").2 (by decide)⟩


/-! ## C4.  Overview keeps empty destinations. -/

theorem firstIdx_eq_none (c : Char) : ∀ l : List Char, c ∉ l → firstIdx l c = none := by
  intro l
  induction l with
  | nil => intro _; rfl
  | cons x xs ih =>
    intro h
    rw [firstIdx, if_neg, ih fun hm => h (List.mem_cons_of_mem x hm)]
    · rfl
    · intro hx
      exact h (hx ▸ List.mem_cons_self x xs)

theorem pyRFind_not_mem (cs : List Char) (c : Char) (h : c ∉ cs) : pyRFind cs c = -1 := by
  rw [pyRFind, firstIdx_eq_none c cs.reverse (fun hm => h (List.mem_reverse.mp hm))]

theorem rfind_dot (base : List Char) :
    pyRFind (base ++ ".bundle".toList) '.' = (base.length : Int) := by
  have hfi : firstIdx ((base ++ ".bundle".toList).reverse) '.' = some 6 := by
    rw [List.reverse_append]
    show firstIdx (['e', 'l', 'd', 'n', 'u', 'b', '.'] ++ base.reverse) '.' = some 6
    simp [firstIdx]
  rw [pyRFind, hfi]
  show ((base ++ ".bundle".toList).length : Int) - 1 - ((6 : Nat) : Int) = (base.length : Int)
  rw [List.length_append, show ".bundle".toList.length = 7 from rfl]
  push_cast
  ring

theorem splitextBase_bundle (base : List Char) (hne : base ≠ [])
    (hdot : '.' ∉ base) (hsep : '/' ∉ base) :
    splitextBase (base ++ ".bundle".toList) = base := by
  have hsep2 : '/' ∉ base ++ ".bundle".toList := by
    intro hm
    rcases List.mem_append.mp hm with h | h
    · exact hsep h
    · simp at h
  have hslice : ∀ a b : Int, a = 0 → b = (base.length : Int) →
      pySlice (base ++ ".bundle".toList) a b = base := by
    rintro a b rfl rfl
    rw [pySlice]
    have h1 : pySliceIdx (base ++ ".bundle".toList).length 0 = 0 := by
      rw [pySliceIdx, if_neg (by omega)]
      simp
    have h2 : pySliceIdx (base ++ ".bundle".toList).length (base.length : Int) =
        base.length := by
      rw [pySliceIdx, if_neg (by omega)]
      rw [Int.toNat_ofNat, List.length_append]
      omega
    rw [h1, h2, List.drop_zero, List.take_left' rfl]
  rw [splitextBase, pyRFind_not_mem _ _ hsep2, rfind_dot]
  rw [if_pos (by omega)]
  have hany : ((pySlice (base ++ ".bundle".toList) (-1 + 1) (base.length : Int)).any
      (fun c => c ≠ '.')) = true := by
    rw [hslice (-1 + 1) _ (by omega) rfl]
    rw [List.any_eq_true]
    obtain ⟨c, hc⟩ := List.exists_mem_of_ne_nil base hne
    refine ⟨c, hc, ?_⟩
    simp only [decide_eq_true_eq]
    intro h
    exact hdot (h ▸ hc)
  rw [if_pos hany, hslice 0 _ rfl rfl]

theorem overview_keeps_dst_general (base : List Char) (hne : base ≠ [])
    (hdot : '.' ∉ base) (hsep : '/' ∉ base) :
    matchStarDotQQQ (splitextBase (base ++ ".bundle".toList))
      (base ++ ".bundle".toList) = false := by
  rw [splitextBase_bundle base hne hdot hsep, matchStarDotQQQ]
  have hdrop : (base ++ ".bundle".toList).drop base.length = ".bundle".toList :=
    List.drop_left _ _
  rw [hdrop]
  simp

theorem set_replicate (a : Nat) : ∀ (n i : Nat),
    (List.replicate n a).set i a = List.replicate n a := by
  intro n
  induction n with
  | zero => intro i; rfl
  | succ n ih =>
    intro i
    cases i with
    | zero => rfl
    | succ i =>
      rw [List.replicate_succ, List.set_cons_succ, ih]

theorem getD_replicate_self (n i d : Nat) : (List.replicate n d).getD i d = d := by
  rw [List.getD_eq_getElem?_getD, List.getElem?_replicate]
  split <;> rfl

theorem quartFold_empty : ∀ (ks : List Nat) (m top left : Nat),
    (ks.foldl (quartStep (List.replicate 8192 0) top left)
      (List.replicate 16384 36, m)).1 = List.replicate 16384 36 := by
  intro ks
  induction ks with
  | nil => intro m top left; rfl
  | cons k rest ih =>
    intro m top left
    rw [List.foldl_cons]
    have hstep : quartStep (List.replicate 8192 0) top left
        (List.replicate 16384 36, m) k = (List.replicate 16384 36, max m 0) := by
      simp only [quartStep, getD_replicate_self, if_true]
      rw [show (36 + ((0 : Nat) <<< 40)) = 36 from rfl, set_replicate]
    rw [hstep]
    exact ih (max m 0) top left

/-- C4 counterexample: a concrete overview run in which the patched
destination index stays entirely at the sentinel (the rendered MRF quad
index reports size 0 for every position), and still the destination bundle
is not deleted — the only removal overview performs is the glob
`splitext(d) + "*.???"`, which does not match the `.bundle` file itself, so
the all-sentinel bundle persists, contradicting the claim. -/
theorem overview_keeps_empty_counterexample :
    (quartIndex (List.replicate 16384 36) 0 (List.replicate 8192 0) false false).1 =
      List.replicate 16384 36 ∧
    overviewUnlinkMatches "R0000C0000.bundle".toList "R0000C0000.bundle".toList
      = false := by
  constructor
  · rw [quartIndex]
    exact quartFold_empty (List.range (64 * 64)) 0 0 0
  · decide

/-- C4 amended: `overview` never deletes the destination bundle, whatever
the patched index holds: for any destination name `base ++ ".bundle"` (base
nonempty, free of dots and separators) the cleanup pattern
`splitext(dst) + "*.???"` does not match the destination bundle file, so an
all-sentinel destination persists on disk; only the refining path
(`underview.quart`, like `tobundle`) deletes empty bundles, through the
size-equals-header-plus-index check. -/
theorem overview_no_delete_amended (base : List Char) (hne : base ≠ [])
    (hdot : '.' ∉ base) (hsep : '/' ∉ base) :
    overviewUnlinkMatches (base ++ ".bundle".toList) (base ++ ".bundle".toList)
      = false ∧
    underviewQuartDeletes (64 + 131072) = true := by
  constructor
  · rw [overviewUnlinkMatches]
    exact overview_keeps_dst_general base hne hdot hsep
  · decide

/-- C4 witness: the amended statement at the concrete destination name
`R0000C0000.bundle`. -/
theorem overview_no_delete_amended_witness :
    overviewUnlinkMatches ("R0000C0000".toList ++ ".bundle".toList)
      ("R0000C0000".toList ++ ".bundle".toList) = false ∧
    underviewQuartDeletes (64 + 131072) = true :=
  overview_no_delete_amended "R0000C0000".toList (by decide) (by decide) (by decide)

/-! ## C6.  Coverage-prober candidate set. -/

theorem getLast_eq_append (a : String) :
    ∀ l : List String, l.getLast? = some a → ∃ t, l = t ++ [a] := by
  intro l
  induction l with
  | nil => intro h; simp at h
  | cons x xs ih =>
    intro h
    cases hxs : xs with
    | nil =>
      rw [hxs] at h
      rw [List.getLast?_singleton] at h
      exact ⟨[], by rw [Option.some_inj.mp h]; rfl⟩
    | cons y ys =>
      rw [hxs, List.getLast?_cons_cons] at h
      obtain ⟨t, ht⟩ := ih (by rw [hxs]; exact h)
      exact ⟨x :: t, by rw [show y :: ys = t ++ [a] from hxs ▸ ht]; rfl⟩

/-- C6 counterexample: with two certain members whose 8-neighborhoods are
disjoint and a pool holding a neighbor of the FIRST member only, the spec
set contains that neighbor but the computed candidate list does not — each
iteration of the source loop rebinds `neighbors`, so only the last member's
neighborhood survives. -/
theorem candidates_last_only_counterexample :
    "R0180C0100" ∈ specCandidates ["R0100C0100", "R1000C1000"] ["R0180C0100"] ∧
    "R0180C0100" ∉ candidatesFn ["R0100C0100", "R1000C1000"] ["R0180C0100"] := by
  decide

/-- C6 amended: in rounds after the first, every computed candidate lies in
the 8-neighborhood of the LAST member of certain, is in the pool, and is not
already certain — neighborhoods of earlier members are not accumulated (the
loop variable is rebound each iteration); in the first round the candidate
list is the whole pool. -/
theorem candidates_amended (certains potentials : List String) (last n : String)
    (hl : certains.getLast? = some last)
    (hn : n ∈ candidatesFn certains potentials) :
    (n ∈ neighborNames last ∧ n ∈ potentials ∧ n ∉ certains) ∧
    ∀ pot : List String, candidatesFn [] pot = pot := by
  obtain ⟨t, rfl⟩ := getLast_eq_append last certains hl
  rw [candidatesFn, if_neg (by simp), List.foldl_append, List.foldl_cons,
    List.foldl_nil] at hn
  obtain ⟨hmem, hpred⟩ := List.mem_filter.mp hn
  simp only [decide_eq_true_eq] at hpred
  exact ⟨⟨hmem, hpred.2.1, hpred.2.2⟩, fun _ => rfl⟩

/-- C6 witness: the amended statement at a one-member certain set and a
one-name pool holding a neighbor of that member. -/
theorem candidates_amended_witness :
    ("R0180C0100" ∈ neighborNames "R0100C0100" ∧
      "R0180C0100" ∈ ["R0180C0100"] ∧ "R0180C0100" ∉ ["R0100C0100"]) ∧
    ∀ pot : List String, candidatesFn [] pot = pot :=
  candidates_amended ["R0100C0100"] ["R0180C0100"] "R0100C0100" "R0180C0100"
    rfl (by decide)


/-! ## C7.  V1 index transpose. -/

theorem range_map_getD (f : Nat → Nat) (n k : Nat) (hk : k < n) (d : Nat) :
    ((List.range n).map f).getD k d = f k := by
  rw [List.getD_eq_getElem?_getD, List.getElem?_map, List.getElem?_range hk]
  rfl

theorem flatMap_range_length (g : Nat → Nat → Nat) (m : Nat) :
    ∀ n, ((List.range n).flatMap fun row => (List.range m).map fun col =>
      g row col).length = n * m := by
  intro n
  induction n with
  | zero => simp
  | succ n ih =>
    rw [List.range_succ, List.flatMap_append, List.length_append, ih]
    simp [Nat.succ_mul]

theorem flatMap_range_getD (g : Nat → Nat → Nat) (m : Nat) :
    ∀ (n r c : Nat), r < n → c < m →
      ((List.range n).flatMap fun row => (List.range m).map fun col =>
        g row col).getD (r * m + c) 0 = g r c := by
  intro n
  induction n with
  | zero => intro r c hr _; exact absurd hr (Nat.not_lt_zero r)
  | succ n ih =>
    intro r c hr hc
    rw [List.range_succ, List.flatMap_append]
    have hlen := flatMap_range_length g m n
    rcases Nat.lt_or_ge r n with h | h
    · have hidx : r * m + c < n * m := by
        have h1 : (r + 1) * m ≤ n * m := Nat.mul_le_mul_right m (by omega)
        have h2 : (r + 1) * m = r * m + m := by ring
        omega
      rw [List.getD_eq_getElem?_getD, List.getElem?_append_left (by rw [hlen]; exact hidx),
        ← List.getD_eq_getElem?_getD]
      exact ih r c h hc
    · have hrn : r = n := by omega
      subst hrn
      rw [List.getD_eq_getElem?_getD,
        List.getElem?_append_right (by rw [hlen]; omega), hlen,
        Nat.add_sub_cancel_left]
      simp only [List.flatMap_cons, List.flatMap_nil, List.append_nil]
      rw [List.getElem?_map, List.getElem?_range hc]
      rfl

theorem readLE5_bytes (data : List Nat) (i : Nat) (h : i + 5 ≤ data.length) :
    readLE data i 5 = data.getD i 0 + (data.getD (i + 1) 0 <<< 8) +
      (data.getD (i + 2) 0 <<< 16) + (data.getD (i + 3) 0 <<< 24) +
      (data.getD (i + 4) 0 <<< 32) := by
  have h0 : i < data.length := by omega
  have h1 : i + 1 < data.length := by omega
  have h2 : i + 2 < data.length := by omega
  have h3 : i + 3 < data.length := by omega
  have h4 : i + 4 < data.length := by omega
  rw [readLE, List.drop_eq_getElem_cons h0, List.drop_eq_getElem_cons h1,
    List.drop_eq_getElem_cons h2, List.drop_eq_getElem_cons h3,
    List.drop_eq_getElem_cons h4]
  rw [List.getD_eq_getElem data 0 h0, List.getD_eq_getElem data 0 h1,
    List.getD_eq_getElem data 0 h2, List.getD_eq_getElem data 0 h3,
    List.getD_eq_getElem data 0 h4]
  show data[i] + 256 * (data[i + 1] + 256 * (data[i + 2] + 256 * (data[i + 3] +
    256 * (data[i + 4] + 256 * 0)))) = _
  rw [Nat.shiftLeft_eq, Nat.shiftLeft_eq, Nat.shiftLeft_eq, Nat.shiftLeft_eq]
  norm_num
  ring

theorem v1raw_getD (index : List Nat) (k : Nat) (hk : k < 16384) :
    (v1raw index).getD k 0 = readLE index (16 + 5 * k) 5 := by
  rw [v1raw, range_map_getD _ _ _ hk]

/-- C7: on a legacy index of exactly 81952 bytes, `v1offsets` succeeds and
returns the row-major transpose of the 16384 raw 5-byte little-endian
offsets decoded from byte 16 on — entry `r * 128 + c` of the result is raw
entry `c * 128 + r`, i.e. the 5 bytes at offset `16 + 5 * (c * 128 + r)`;
both implementations (122.py and V1toV2.py) compute the same list; any
other input length is the fatal format error. -/
theorem v1offsets_transpose (index : List Nat) (r c : Nat)
    (hlen : index.length = 81952) (hr : r < 128) (hc : c < 128) :
    v1offsets index = Except.ok (v1transposed index) ∧
    (v1transposed index).length = 16384 ∧
    (v1transposed index).getD (r * 128 + c) 0 =
      readLE index (16 + 5 * (c * 128 + r)) 5 ∧
    v1offsetsB index = v1offsets index ∧
    (∀ jdx : List Nat, jdx.length ≠ 81952 →
      v1offsets jdx = Except.error "Invalid index length") := by
  refine ⟨by rw [v1offsets, if_pos hlen], ?_, ?_, ?_, fun jdx hj => by
    rw [v1offsets, if_neg hj]⟩
  · rw [v1transposed, flatMap_range_length]
  · have hcr : c * 128 + r < 16384 := by omega
    rw [v1transposed, flatMap_range_getD _ _ _ _ _ hr hc, v1raw_getD index _ hcr]
  · rw [v1offsetsB, v1offsets, if_pos hlen, if_pos hlen, v1transposed]
    have hraw : ((List.range 16384).map fun k =>
        index.getD (16 + 5 * k) 0 + (index.getD (16 + 5 * k + 1) 0 <<< 8) +
        (index.getD (16 + 5 * k + 2) 0 <<< 16) +
        (index.getD (16 + 5 * k + 3) 0 <<< 24) +
        (index.getD (16 + 5 * k + 4) 0 <<< 32)) = v1raw index := by
      rw [v1raw]
      apply List.map_congr_left
      intro k hk
      have hk2 : k < 16384 := List.mem_range.mp hk
      rw [readLE5_bytes index (16 + 5 * k) (by omega)]
    rw [hraw]

/-- C7 witness: the transpose statement instantiated at a concrete 81952-byte
legacy index and grid position (0, 0). -/
theorem v1offsets_transpose_witness :
    v1offsets (List.replicate 81952 0) =
      Except.ok (v1transposed (List.replicate 81952 0)) ∧
    (v1transposed (List.replicate 81952 0)).length = 16384 ∧
    (v1transposed (List.replicate 81952 0)).getD (0 * 128 + 0) 0 =
      readLE (List.replicate 81952 0) (16 + 5 * (0 * 128 + 0)) 5 ∧
    v1offsetsB (List.replicate 81952 0) = v1offsets (List.replicate 81952 0) ∧
    (∀ jdx : List Nat, jdx.length ≠ 81952 →
      v1offsets jdx = Except.error "Invalid index length") :=
  v1offsets_transpose (List.replicate 81952 0) 0 0
    (by rw [List.length_replicate]) (by omega) (by omega)

/-! ## C2.  The two V1-to-V2 conversion loops: per-entry closed forms. -/

theorem conv122N_succ (offsets data outidx0 : List Nat) (base k : Nat) :
    conv122N offsets data outidx0 base (k + 1) =
      conv122step offsets data (conv122N offsets data outidx0 base k) k := by
  rw [conv122N, conv122N, List.range_succ, List.foldl_append, List.foldl_cons,
    List.foldl_nil]

theorem conv122N_spec (offsets data outidx0 : List Nat) (base : Nat) :
    ∀ k, k ≤ outidx0.length →
      (conv122N offsets data outidx0 base k).outoffset =
        appendAfter (sz122 offsets data) base k ∧
      (conv122N offsets data outidx0 base k).outidx.length = outidx0.length ∧
      (conv122N offsets data outidx0 base k).app =
        appJoin (sz122 offsets data) (seg122 offsets data) k ∧
      ∀ i, (conv122N offsets data outidx0 base k).outidx.getD i 0 =
        if i < k ∧ sz122 offsets data i ≠ 0 then
          appendAfter (sz122 offsets data) base i + 4 + (sz122 offsets data i <<< 40)
        else outidx0.getD i 0 := by
  intro k
  induction k with
  | zero =>
    intro _
    refine ⟨rfl, rfl, rfl, fun i => ?_⟩
    rw [if_neg]
    · rfl
    · rintro ⟨hi, _⟩
      omega
  | succ k ih =>
    intro hk
    obtain ⟨ihoff, ihlen, ihapp, ihidx⟩ := ih (by omega)
    rw [conv122N_succ, conv122step]
    by_cases hsz : sz122 offsets data k = 0
    · rw [if_pos hsz]
      refine ⟨?_, ihlen, ?_, fun i => ?_⟩
      · rw [ihoff, appendAfter, if_pos hsz]
        omega
      · rw [ihapp, appJoin, if_pos hsz, List.append_nil]
      · rw [ihidx i]
        by_cases hik : i < k + 1 ∧ sz122 offsets data i ≠ 0
        · have hik2 : i < k ∧ sz122 offsets data i ≠ 0 := by
            obtain ⟨h1, h2⟩ := hik
            refine ⟨?_, h2⟩
            rcases Nat.lt_or_ge i k with h | h
            · exact h
            · exfalso
              have hik3 : i = k := by omega
              rw [hik3] at h2
              exact h2 hsz
          rw [if_pos hik2, if_pos hik]
        · rw [if_neg hik, if_neg]
          intro ⟨h1, h2⟩
          exact hik ⟨by omega, h2⟩
    · rw [if_neg hsz]
      refine ⟨?_, ?_, ?_, fun i => ?_⟩
      · simp only [ihoff, appendAfter, if_neg hsz]
        omega
      · simp only [List.length_set, ihlen]
      · rw [ihapp, appJoin, if_neg hsz]
      · by_cases hik : i = k
        · subst hik
          rw [List.getD_eq_getElem?_getD, List.getElem?_set_self (by omega),
            if_pos ⟨by omega, hsz⟩, ihoff]
          rfl
        · rw [List.getD_eq_getElem?_getD, List.getElem?_set_ne (fun h => hik h.symm),
            ← List.getD_eq_getElem?_getD, ihidx i]
          by_cases hik2 : i < k ∧ sz122 offsets data i ≠ 0
          · rw [if_pos hik2, if_pos ⟨by omega, hik2.2⟩]
          · rw [if_neg hik2, if_neg]
            intro ⟨h1, h2⟩
            exact hik2 ⟨by omega, h2⟩

theorem conv1to2N_succ (offsets data outidx0 : List Nat) (base k : Nat) :
    conv1to2N offsets data outidx0 base (k + 1) =
      conv1to2step offsets data (conv1to2N offsets data outidx0 base k) k := by
  rw [conv1to2N, conv1to2N, List.range_succ, List.foldl_append, List.foldl_cons,
    List.foldl_nil]

theorem conv1to2N_spec (offsets data outidx0 : List Nat) (base : Nat) :
    ∀ k, k ≤ outidx0.length →
      (conv1to2N offsets data outidx0 base k).outoffset =
        appendAfter (sz1to2 offsets data) base k ∧
      (conv1to2N offsets data outidx0 base k).outidx.length = outidx0.length ∧
      (conv1to2N offsets data outidx0 base k).app =
        appJoin (sz1to2 offsets data) (seg1to2 offsets data) k ∧
      ∀ i, (conv1to2N offsets data outidx0 base k).outidx.getD i 0 =
        if i < k ∧ sz1to2 offsets data i ≠ 0 then
          appendAfter (sz1to2 offsets data) base i + 4 + (sz1to2 offsets data i >>> 40)
        else outidx0.getD i 0 := by
  intro k
  induction k with
  | zero =>
    intro _
    refine ⟨rfl, rfl, rfl, fun i => ?_⟩
    rw [if_neg]
    · rfl
    · rintro ⟨hi, _⟩
      omega
  | succ k ih =>
    intro hk
    obtain ⟨ihoff, ihlen, ihapp, ihidx⟩ := ih (by omega)
    rw [conv1to2N_succ, conv1to2step]
    by_cases hsz : sz1to2 offsets data k = 0
    · rw [if_pos hsz]
      refine ⟨?_, ihlen, ?_, fun i => ?_⟩
      · rw [ihoff, appendAfter, if_pos hsz]
        omega
      · rw [ihapp, appJoin, if_pos hsz, List.append_nil]
      · rw [ihidx i]
        by_cases hik : i < k + 1 ∧ sz1to2 offsets data i ≠ 0
        · have hik2 : i < k ∧ sz1to2 offsets data i ≠ 0 := by
            obtain ⟨h1, h2⟩ := hik
            refine ⟨?_, h2⟩
            rcases Nat.lt_or_ge i k with h | h
            · exact h
            · exfalso
              have hik3 : i = k := by omega
              rw [hik3] at h2
              exact h2 hsz
          rw [if_pos hik2, if_pos hik]
        · rw [if_neg hik, if_neg]
          intro ⟨h1, h2⟩
          exact hik ⟨by omega, h2⟩
    · rw [if_neg hsz]
      refine ⟨?_, ?_, ?_, fun i => ?_⟩
      · simp only [ihoff, appendAfter, if_neg hsz]
        omega
      · simp only [List.length_set, ihlen]
      · rw [ihapp, appJoin, if_neg hsz]
      · by_cases hik : i = k
        · subst hik
          rw [List.getD_eq_getElem?_getD, List.getElem?_set_self (by omega),
            if_pos ⟨by omega, hsz⟩, ihoff]
          rfl
        · rw [List.getD_eq_getElem?_getD, List.getElem?_set_ne (fun h => hik h.symm),
            ← List.getD_eq_getElem?_getD, ihidx i]
          by_cases hik2 : i < k ∧ sz1to2 offsets data i ≠ 0
          · rw [if_pos hik2, if_pos ⟨by omega, hik2.2⟩]
          · rw [if_neg hik2, if_neg]
            intro ⟨h1, h2⟩
            exact hik2 ⟨by omega, h2⟩

/-- C2: the two converters disagree, and V1toV2.py violates the claim.  At
the second failing input (offsets[1] points at a stored tile of size 5,
every other offset at a zero size field), 122.py stores tile 1 and writes
index entry (appendOffset + 4) | (size << 40) = 131140 + (5 << 40) exactly
as the claim states, while V1toV2.py reads through a second transpose
(in_idx = (i % 128) * 128 + i / 128, on top of the transpose already done by
v1offsets) and therefore reads a zero size for tile 1, leaving the entry at
the sentinel 36.  At the first failing input (all offsets 0, a size-5 tile
at offset 0) both read size 5, but V1toV2.py computes the entry with
`size >> 40` instead of `size << 40`, producing 131140 instead of
131140 + (5 << 40). -/
theorem v1tov2_entry_rule_bug :
    (conv122 woffs2 wdata2 (List.replicate 16384 36) 131136).outidx.getD 1 0 =
      131136 + 4 + (5 <<< 40) ∧
    (conv1to2 woffs2 wdata2 (List.replicate 16384 36) 131136).outidx.getD 1 0 = 36 ∧
    (conv1to2 woffs wdata (List.replicate 16384 36) 131136).outidx.getD 0 0 = 131140 ∧
    (conv122 woffs wdata (List.replicate 16384 36) 131136).outidx.getD 0 0 =
      131136 + 4 + (5 <<< 40) ∧
    (36 : Nat) ≠ 131136 + 4 + (5 <<< 40) ∧
    (131140 : Nat) ≠ 131136 + 4 + (5 <<< 40) := by
  have hw2_1 : woffs2.getD 1 0 = 0 := by
    rw [woffs2, List.getD_eq_getElem?_getD,
      List.getElem?_set_self (by rw [List.length_replicate]; omega)]
    rfl
  have hw2_0 : woffs2.getD 0 0 = 9 := by
    rw [woffs2, List.getD_eq_getElem?_getD, List.getElem?_set_ne (by omega),
      List.getElem?_replicate, if_pos (by omega)]
    rfl
  have hw2_128 : woffs2.getD (tr128 1) 0 = 9 := by
    rw [show tr128 1 = 128 from rfl, woffs2, List.getD_eq_getElem?_getD,
      List.getElem?_set_ne (by omega), List.getElem?_replicate, if_pos (by omega)]
    rfl
  have hs122_1 : sz122 woffs2 wdata2 1 = 5 := by
    rw [sz122, hw2_1]
    decide
  have hs122_0 : sz122 woffs2 wdata2 0 = 0 := by
    rw [sz122, hw2_0]
    decide
  have hs1to2_1 : sz1to2 woffs2 wdata2 1 = 0 := by
    simp only [sz1to2]
    rw [hw2_128]
    decide
  have hw_0 : woffs.getD (tr128 0) 0 = 0 := by
    rw [show tr128 0 = 0 from rfl, woffs]
    exact getD_replicate_self _ _ _
  have hs1to2_w0 : sz1to2 woffs wdata 0 = 5 := by
    simp only [sz1to2]
    rw [hw_0]
    decide
  have hs122_w0 : sz122 woffs wdata 0 = 5 := by
    rw [sz122, woffs, getD_replicate_self]
    decide
  refine ⟨?_, ?_, ?_, ?_, by decide, by decide⟩
  · have hspec := (conv122N_spec woffs2 wdata2 (List.replicate 16384 36) 131136
      (List.replicate 16384 36).length (Nat.le_refl _)).2.2.2
    rw [conv122, hspec 1,
      if_pos ⟨by rw [List.length_replicate]; omega, by rw [hs122_1]; omega⟩, hs122_1]
    have happ : appendAfter (sz122 woffs2 wdata2) 131136 1 = 131136 := by
      have h1 : appendAfter (sz122 woffs2 wdata2) 131136 1 = 131136 +
          (if sz122 woffs2 wdata2 0 = 0 then 0 else 4 + sz122 woffs2 wdata2 0) := rfl
      rw [h1, if_pos hs122_0]
    rw [happ]
  · have hspec := (conv1to2N_spec woffs2 wdata2 (List.replicate 16384 36) 131136
      (List.replicate 16384 36).length (Nat.le_refl _)).2.2.2
    rw [conv1to2, hspec 1, if_neg (fun h => h.2 hs1to2_1),
      List.getD_eq_getElem?_getD, List.getElem?_replicate, if_pos (by omega)]
    rfl
  · have hspec := (conv1to2N_spec woffs wdata (List.replicate 16384 36) 131136
      (List.replicate 16384 36).length (Nat.le_refl _)).2.2.2
    rw [conv1to2, hspec 0,
      if_pos ⟨by rw [List.length_replicate]; omega, by rw [hs1to2_w0]; omega⟩,
      hs1to2_w0, show appendAfter (sz1to2 woffs wdata) 131136 0 = 131136 from rfl]
    decide
  · have hspec := (conv122N_spec woffs wdata (List.replicate 16384 36) 131136
      (List.replicate 16384 36).length (Nat.le_refl _)).2.2.2
    rw [conv122, hspec 0,
      if_pos ⟨by rw [List.length_replicate]; omega, by rw [hs122_w0]; omega⟩,
      hs122_w0, show appendAfter (sz122 woffs wdata) 131136 0 = 131136 from rfl]

/-! ## C1.  Level-scheduler mutual exclusion. -/

theorem takeFirstUnblocked_none (blocked : List String) :
    ∀ pending, takeFirstUnblocked blocked pending = none →
      ∀ q ∈ pending, generates q ∈ blocked := by
  intro pending
  induction pending with
  | nil => intro _ q hq; simp at hq
  | cons x xs ih =>
    intro h q hq
    rw [takeFirstUnblocked] at h
    by_cases hx : generates x ∈ blocked
    · rw [if_pos hx] at h
      rcases List.mem_cons.mp hq with rfl | hq2
      · exact hx
      · cases hxs : takeFirstUnblocked blocked xs with
        | none => exact ih hxs q hq2
        | some val => rw [hxs] at h; simp at h
    · rw [if_neg hx] at h
      simp at h

theorem takeFirstUnblocked_some (blocked : List String) :
    ∀ pending e pending1, takeFirstUnblocked blocked pending = some (e, pending1) →
      e ∈ pending ∧ generates e ∉ blocked ∧ pending1.length + 1 = pending.length ∧
      ∀ q ∈ pending1, q ∈ pending := by
  intro pending
  induction pending with
  | nil => intro e p1 h; rw [takeFirstUnblocked] at h; simp at h
  | cons x xs ih =>
    intro e p1 h
    rw [takeFirstUnblocked] at h
    by_cases hx : generates x ∈ blocked
    · rw [if_pos hx] at h
      cases hxs : takeFirstUnblocked blocked xs with
      | none => rw [hxs] at h; simp at h
      | some val =>
        obtain ⟨e2, rest2⟩ := val
        rw [hxs] at h
        have h2 := Option.some.inj h
        have he : e2 = e := congrArg Prod.fst h2
        have hp : x :: rest2 = p1 := congrArg Prod.snd h2
        obtain ⟨ihm, ihb, ihl, ihs⟩ := ih e2 rest2 hxs
        subst he
        subst hp
        refine ⟨List.mem_cons_of_mem x ihm, ihb, ?_, ?_⟩
        · simp only [List.length_cons] at ihl ⊢
          omega
        · intro q hq
          rcases List.mem_cons.mp hq with rfl | hq2
          · exact List.mem_cons_self q xs
          · exact List.mem_cons_of_mem x (ihs q hq2)
    · rw [if_neg hx] at h
      have h2 := Option.some.inj h
      have he : x = e := congrArg Prod.fst h2
      have hp : xs = p1 := congrArg Prod.snd h2
      subst he
      subst hp
      exact ⟨List.mem_cons_self x xs, hx, rfl, fun q hq => List.mem_cons_of_mem x hq⟩

theorem msPop_sublist (jobs : List String) (oracle : List Nat) :
    List.Sublist (msPop jobs oracle) jobs := by
  rw [msPop]
  split
  · exact List.eraseIdx_sublist jobs _
  · exact List.Sublist.refl jobs

theorem msPop_length (jobs : List String) (oracle : List Nat) (h : jobs ≠ []) :
    (msPop jobs oracle).length + 1 = jobs.length := by
  have hpos : 0 < jobs.length := List.length_pos.mpr h
  rw [msPop, if_pos (by omega), popJobs.eq_def]
  cases oracle with
  | nil =>
    show (jobs.eraseIdx 0).length + 1 = jobs.length
    rw [List.length_eraseIdx, if_pos hpos]
    omega
  | cons c rest =>
    show (jobs.eraseIdx (c % jobs.length)).length + 1 = jobs.length
    rw [List.length_eraseIdx, if_pos (Nat.mod_lt c hpos)]
    omega

theorem msPop_length_le (jobs : List String) (oracle : List Nat) :
    (msPop jobs oracle).length ≤ jobs.length :=
  (msPop_sublist jobs oracle).length_le

theorem makeslotF_measure (nprocs : Nat) (drain : Bool) :
    ∀ (fuel : Nat) (pending jobs : List String) (oracle : List Nat),
      (makeslotF nprocs drain fuel jobs pending oracle).jobs.length +
        (makeslotF nprocs drain fuel jobs pending oracle).pending.length ≤
        jobs.length + pending.length ∧
      (drain = true → jobs ≠ [] →
        (makeslotF nprocs drain fuel jobs pending oracle).jobs.length +
          (makeslotF nprocs drain fuel jobs pending oracle).pending.length <
          jobs.length + pending.length) := by
  intro fuel
  induction fuel with
  | zero =>
    intro pending jobs oracle
    rw [makeslotF.eq_def]
    dsimp only
    by_cases hearly : drain = false ∧ jobs.length ≠ nprocs
    · rw [if_pos hearly]
      refine ⟨Nat.le_refl _, fun hd _ => ?_⟩
      rw [hd] at hearly
      exact absurd hearly.1 (by simp)
    · rw [if_neg hearly]
      cases pending with
      | nil =>
        dsimp only
        have hle := msPop_length_le jobs oracle
        refine ⟨by simpa using hle, fun _ hne => ?_⟩
        have := msPop_length jobs oracle hne
        simp only [List.length_nil]
        omega
      | cons p ps =>
        dsimp only
        cases htf : takeFirstUnblocked ((msPop jobs oracle).map generates) (p :: ps) with
        | none =>
          dsimp only
          have hle := msPop_length_le jobs oracle
          refine ⟨by omega, fun _ hne => ?_⟩
          have := msPop_length jobs oracle hne
          omega
        | some val =>
          obtain ⟨e, pending1⟩ := val
          dsimp only
          have hle := msPop_length_le jobs oracle
          refine ⟨by omega, fun _ hne => ?_⟩
          have := msPop_length jobs oracle hne
          omega
  | succ fuel0 ih =>
    intro pending jobs oracle
    rw [makeslotF.eq_def]
    dsimp only
    by_cases hearly : drain = false ∧ jobs.length ≠ nprocs
    · rw [if_pos hearly]
      refine ⟨Nat.le_refl _, fun hd _ => ?_⟩
      rw [hd] at hearly
      exact absurd hearly.1 (by simp)
    · rw [if_neg hearly]
      cases pending with
      | nil =>
        dsimp only
        have hle := msPop_length_le jobs oracle
        refine ⟨by simpa using hle, fun _ hne => ?_⟩
        have := msPop_length jobs oracle hne
        simp only [List.length_nil]
        omega
      | cons p ps =>
        dsimp only
        cases htf : takeFirstUnblocked ((msPop jobs oracle).map generates) (p :: ps) with
        | none =>
          dsimp only
          have hle := msPop_length_le jobs oracle
          refine ⟨by omega, fun _ hne => ?_⟩
          have := msPop_length jobs oracle hne
          omega
        | some val =>
          obtain ⟨e, pending1⟩ := val
          dsimp only
          obtain ⟨ih1, -⟩ := ih pending1 (msPop jobs oracle ++ [e]) (msPopO jobs oracle)
          obtain ⟨-, -, hlen, -⟩ := takeFirstUnblocked_some _ _ _ _ htf
          have hle := msPop_length_le jobs oracle
          rw [List.length_append, List.length_singleton] at ih1
          simp only [List.length_cons] at hlen ⊢
          refine ⟨by omega, fun _ hne => ?_⟩
          have := msPop_length jobs oracle hne
          omega

theorem makeslotF_spec (nprocs : Nat) (hn : 1 ≤ nprocs) (drain : Bool) :
    ∀ (fuel : Nat) (pending jobs : List String) (oracle : List Nat),
      pending.length ≤ fuel →
      jobs.Pairwise (fun a b => generates a ≠ generates b) →
      (makeslotF nprocs drain fuel jobs pending oracle).jobs.Pairwise
          (fun a b => generates a ≠ generates b) ∧
      (∀ d ∈ (makeslotF nprocs drain fuel jobs pending oracle).jobs.map generates,
        d ∈ jobs.map generates ∨ d ∈ pending.map generates) ∧
      ((drain = true ∨ jobs.length = nprocs) →
        ∀ q ∈ (makeslotF nprocs drain fuel jobs pending oracle).pending,
          generates q ∈
            (makeslotF nprocs drain fuel jobs pending oracle).jobs.map generates) ∧
      ((drain = false ∧ jobs.length ≠ nprocs) →
        makeslotF nprocs drain fuel jobs pending oracle =
          ⟨jobs, pending, oracle, []⟩) ∧
      (∀ t ∈ (makeslotF nprocs drain fuel jobs pending oracle).trace,
        t.Pairwise (fun a b => generates a ≠ generates b)) := by
  intro fuel
  induction fuel with
  | zero =>
    intro pending jobs oracle hf hpw
    have hpe : pending = [] := List.length_eq_zero.mp (Nat.le_zero.mp hf)
    subst hpe
    rw [makeslotF.eq_def]
    dsimp only
    by_cases hearly : drain = false ∧ jobs.length ≠ nprocs
    · rw [if_pos hearly]
      exact ⟨hpw, fun d hd => Or.inl hd, fun _ q hq => by simp at hq,
        fun _ => rfl, fun t ht => by simp at ht⟩
    · rw [if_neg hearly]
      have hpw1 : (msPop jobs oracle).Pairwise (fun a b => generates a ≠ generates b) :=
        List.Pairwise.sublist (msPop_sublist jobs oracle) hpw
      refine ⟨hpw1, fun d hd => Or.inl ?_, fun _ q hq => by simp at hq,
        fun h => absurd h hearly, fun t ht => ?_⟩
      · exact ((msPop_sublist jobs oracle).map generates).subset hd
      · rcases List.mem_cons.mp ht with rfl | h2
        · exact hpw1
        · simp at h2
  | succ fuel0 ih =>
    intro pending jobs oracle hf hpw
    rw [makeslotF.eq_def]
    dsimp only
    by_cases hearly : drain = false ∧ jobs.length ≠ nprocs
    · rw [if_pos hearly]
      exact ⟨hpw, fun d hd => Or.inl hd, fun hc q hq => by
        rcases hc with hc | hc
        · rw [hc] at hearly; exact absurd hearly.1 (by simp)
        · exact absurd hc hearly.2,
        fun _ => rfl, fun t ht => by simp at ht⟩
    · rw [if_neg hearly]
      have hpw1 : (msPop jobs oracle).Pairwise (fun a b => generates a ≠ generates b) :=
        List.Pairwise.sublist (msPop_sublist jobs oracle) hpw
      cases pending with
      | nil =>
        dsimp only
        refine ⟨hpw1, fun d hd => Or.inl ?_, fun _ q hq => by simp at hq,
          fun h => absurd h hearly, fun t ht => ?_⟩
        · exact ((msPop_sublist jobs oracle).map generates).subset hd
        · rcases List.mem_cons.mp ht with rfl | h2
          · exact hpw1
          · simp at h2
      | cons p ps =>
        dsimp only
        cases htf : takeFirstUnblocked ((msPop jobs oracle).map generates) (p :: ps) with
        | none =>
          dsimp only
          refine ⟨hpw1, fun d hd => Or.inl ?_, fun _ q hq => ?_,
            fun h => absurd h hearly, fun t ht => ?_⟩
          · exact ((msPop_sublist jobs oracle).map generates).subset hd
          · exact takeFirstUnblocked_none _ _ htf q hq
          · rcases List.mem_cons.mp ht with rfl | h2
            · exact hpw1
            · simp at h2
        | some val =>
          obtain ⟨e, pending1⟩ := val
          dsimp only
          obtain ⟨hmemE, hnb, hlen1, hsub1⟩ := takeFirstUnblocked_some _ _ _ _ htf
          have hpw2 : (msPop jobs oracle ++ [e]).Pairwise
              (fun a b => generates a ≠ generates b) := by
            rw [List.pairwise_append]
            refine ⟨hpw1, List.pairwise_singleton _ _, fun a ha b hb => ?_⟩
            rw [List.mem_singleton.mp hb]
            intro heq
            exact hnb (heq ▸ List.mem_map_of_mem generates ha)
          have hfuel : pending1.length ≤ fuel0 := by
            simp only [List.length_cons] at hf hlen1
            omega
          obtain ⟨iha, ihb, ihc, ihd, ihe⟩ :=
            ih pending1 (msPop jobs oracle ++ [e]) (msPopO jobs oracle) hfuel hpw2
          refine ⟨iha, fun d hd => ?_, fun hc q hq => ?_, fun h => absurd h hearly,
            fun t ht => ?_⟩
          · rcases ihb d hd with h2 | h2
            · rw [List.map_append] at h2
              rcases List.mem_append.mp h2 with h3 | h3
              · exact Or.inl (((msPop_sublist jobs oracle).map generates).subset h3)
              · right
                rcases List.mem_map.mp h3 with ⟨a, ha, rfl⟩
                rw [List.mem_singleton.mp ha]
                exact List.mem_map_of_mem generates hmemE
            · right
              rcases List.mem_map.mp h2 with ⟨a, ha, rfl⟩
              exact List.mem_map_of_mem generates (hsub1 a ha)
          · refine ihc ?_ q hq
            rcases hc with hc | hc
            · exact Or.inl hc
            · right
              have hne : jobs ≠ [] := by
                intro h0
                rw [h0] at hc
                simp at hc
                omega
              rw [List.length_append, List.length_singleton,
                show (msPop jobs oracle).length = jobs.length - 1 from by
                  have := msPop_length jobs oracle hne
                  omega]
              omega
          · rcases List.mem_cons.mp ht with rfl | h2
            · exact hpw1
            · rcases List.mem_cons.mp h2 with rfl | h3
              · exact hpw2
              · exact ihe t h3

theorem schedLoop_spec (nprocs : Nat) (hn : 1 ≤ nprocs) :
    ∀ (entries jobs pending : List String) (oracle : List Nat),
      jobs.Pairwise (fun a b => generates a ≠ generates b) →
      (∀ q ∈ pending, generates q ∈ jobs.map generates) →
      (schedLoop nprocs entries jobs pending oracle).jobs.Pairwise
          (fun a b => generates a ≠ generates b) ∧
      (∀ q ∈ (schedLoop nprocs entries jobs pending oracle).pending,
        generates q ∈ (schedLoop nprocs entries jobs pending oracle).jobs.map generates) ∧
      (∀ t ∈ (schedLoop nprocs entries jobs pending oracle).trace,
        t.Pairwise (fun a b => generates a ≠ generates b)) := by
  intro entries
  induction entries with
  | nil =>
    intro jobs pending oracle hpw hpend
    exact ⟨hpw, hpend, fun t ht => by simp [schedLoop] at ht⟩
  | cons e rest ih =>
    intro jobs pending oracle hpw hpend
    rw [schedLoop.eq_def]
    dsimp only
    by_cases hb : generates e ∈ jobs.map generates
    · rw [if_pos hb]
      refine ih jobs (pending ++ [e]) oracle hpw fun q hq => ?_
      rcases List.mem_append.mp hq with h | h
      · exact hpend q h
      · rw [List.mem_singleton.mp h]; exact hb
    · rw [if_neg hb]
      obtain ⟨sa, sb, sc, sd, se⟩ :=
        makeslotF_spec nprocs hn false pending.length pending jobs oracle
          (Nat.le_refl _) hpw
      have h2 : ∀ d ∈ (makeslot nprocs false jobs pending oracle).jobs.map generates,
          d ∈ jobs.map generates := by
        intro d hd
        rcases sb d hd with h | h
        · exact h
        · rcases List.mem_map.mp h with ⟨q, hq, rfl⟩
          exact hpend q hq
      have h3 : generates e ∉
          (makeslot nprocs false jobs pending oracle).jobs.map generates :=
        fun h => hb (h2 _ h)
      have h4 : ((makeslot nprocs false jobs pending oracle).jobs ++ [e]).Pairwise
          (fun a b => generates a ≠ generates b) := by
        rw [List.pairwise_append]
        refine ⟨sa, List.pairwise_singleton _ _, fun a ha b hbm => ?_⟩
        rw [List.mem_singleton.mp hbm]
        intro heq
        exact h3 (heq ▸ List.mem_map_of_mem generates ha)
      have h5 : ∀ q ∈ (makeslot nprocs false jobs pending oracle).pending,
          generates q ∈
            ((makeslot nprocs false jobs pending oracle).jobs ++ [e]).map generates := by
        intro q hq
        rw [List.map_append]
        by_cases hfull : jobs.length = nprocs
        · exact List.mem_append.mpr (Or.inl (sc (Or.inr hfull) q hq))
        · have ho : makeslot nprocs false jobs pending oracle =
              ⟨jobs, pending, oracle, []⟩ := sd ⟨rfl, hfull⟩
          rw [ho] at hq ⊢
          exact List.mem_append.mpr (Or.inl (hpend q hq))
      obtain ⟨iha, ihb, ihc⟩ :=
        ih ((makeslot nprocs false jobs pending oracle).jobs ++ [e])
          (makeslot nprocs false jobs pending oracle).pending
          (makeslot nprocs false jobs pending oracle).oracle h4 h5
      refine ⟨iha, ihb, fun t ht => ?_⟩
      rcases List.mem_append.mp ht with h | h
      · exact se t h
      · rcases List.mem_cons.mp h with rfl | h6
        · exact h4
        · exact ihc t h6

theorem drainLoop_spec (nprocs : Nat) (hn : 1 ≤ nprocs) :
    ∀ (fuel : Nat) (jobs pending : List String) (oracle : List Nat),
      jobs.Pairwise (fun a b => generates a ≠ generates b) →
      (∀ q ∈ pending, generates q ∈ jobs.map generates) →
      (drainLoop nprocs fuel jobs pending oracle).jobs.Pairwise
          (fun a b => generates a ≠ generates b) ∧
      (∀ q ∈ (drainLoop nprocs fuel jobs pending oracle).pending,
        generates q ∈ (drainLoop nprocs fuel jobs pending oracle).jobs.map generates) ∧
      (∀ t ∈ (drainLoop nprocs fuel jobs pending oracle).trace,
        t.Pairwise (fun a b => generates a ≠ generates b)) := by
  intro fuel
  induction fuel with
  | zero =>
    intro jobs pending oracle hpw hpend
    cases jobs with
    | nil => exact ⟨List.Pairwise.nil, hpend, fun t ht => by simp [drainLoop] at ht⟩
    | cons j js => exact ⟨hpw, hpend, fun t ht => by simp [drainLoop] at ht⟩
  | succ fuel0 ih =>
    intro jobs pending oracle hpw hpend
    cases jobs with
    | nil => exact ⟨List.Pairwise.nil, hpend, fun t ht => by simp [drainLoop] at ht⟩
    | cons j js =>
      rw [drainLoop.eq_def]
      dsimp only
      obtain ⟨sa, sb, sc, sd, se⟩ :=
        makeslotF_spec nprocs hn true pending.length pending (j :: js) oracle
          (Nat.le_refl _) hpw
      have h5 : ∀ q ∈ (makeslot nprocs true (j :: js) pending oracle).pending,
          generates q ∈
            (makeslot nprocs true (j :: js) pending oracle).jobs.map generates :=
        sc (Or.inl rfl)
      obtain ⟨iha, ihb, ihc⟩ :=
        ih (makeslot nprocs true (j :: js) pending oracle).jobs
          (makeslot nprocs true (j :: js) pending oracle).pending
          (makeslot nprocs true (j :: js) pending oracle).oracle sa h5
      refine ⟨iha, ihb, fun t ht => ?_⟩
      rcases List.mem_append.mp ht with h | h
      · exact se t h
      · exact ihc t h

theorem drainLoop_complete (nprocs : Nat) :
    ∀ (fuel : Nat) (jobs pending : List String) (oracle : List Nat),
      jobs.length + pending.length ≤ fuel →
      (drainLoop nprocs fuel jobs pending oracle).jobs = [] := by
  intro fuel
  induction fuel with
  | zero =>
    intro jobs pending oracle hf
    cases jobs with
    | nil => rfl
    | cons j js => simp [List.length_cons] at hf
  | succ fuel0 ih =>
    intro jobs pending oracle hf
    cases jobs with
    | nil => rfl
    | cons j js =>
      rw [drainLoop.eq_def]
      dsimp only
      simp only [makeslot]
      obtain ⟨_, hstrict⟩ :=
        makeslotF_measure nprocs true pending.length pending (j :: js) oracle
      have hlt := hstrict rfl (by simp)
      exact ih _ _ _ (by omega)

/-- C1: level-scheduler mutual exclusion.  In every execution of the level
build — `ovrlevel` over any finite list of source entries, under any
completion oracle (any choice `endajob` may make at each consultation) —
every value the in-flight jobs list ever takes (including the states right
after `makeslot` admits a pending entry and right after the caller submits a
newly arrived entry) holds no two jobs whose source entries map via
`generates` to the same destination bundle: at most one in-flight job writes
to any given destination at any time. -/
theorem ovrlevel_mutual_exclusion (nprocs : Nat) (hn : 1 ≤ nprocs)
    (entries : List String) (oracle : List Nat) :
    ∀ t ∈ ovrlevelTrace nprocs entries oracle,
      t.Pairwise (fun a b => generates a ≠ generates b) := by
  intro t ht
  obtain ⟨s1, s2, s3⟩ := schedLoop_spec nprocs hn entries [] [] oracle
    List.Pairwise.nil (fun q hq => by simp at hq)
  obtain ⟨_, _, d3⟩ := drainLoop_spec nprocs hn
    ((schedLoop nprocs entries [] [] oracle).jobs.length +
      (schedLoop nprocs entries [] [] oracle).pending.length)
    (schedLoop nprocs entries [] [] oracle).jobs
    (schedLoop nprocs entries [] [] oracle).pending
    (schedLoop nprocs entries [] [] oracle).oracle s1 s2
  simp only [ovrlevelTrace] at ht
  rcases List.mem_append.mp ht with h | h
  · exact s3 t h
  · exact d3 t h

/-- Concrete run of `ovrlevel_mutual_exclusion`: two entries of the same
column pair (both coarsen into destination R0000C0000), one slot, oracle
always finishing job 0. -/
theorem ovrlevel_mutual_exclusion_witness :
    (1 ≤ 1) ∧
    ∀ t ∈ ovrlevelTrace 1 ["R0000C0000.bundle", "R0000C0080.bundle"] [0, 0, 0],
      t.Pairwise (fun a b => generates a ≠ generates b) :=
  ⟨Nat.le_refl 1,
    ovrlevel_mutual_exclusion 1 (Nat.le_refl 1)
      ["R0000C0000.bundle", "R0000C0080.bundle"] [0, 0, 0]⟩
